import Mathlib

/-!
# Verification of the 2048 board engine and expectiminimax solver

A shallow embedding, over `Nat` and `Rat`, of the 2048 game engine:

* `src/utils.rs` — per-row slide-and-merge (`get_left_move`, `get_right_move`,
  `set_value_in_row`, `get_exponent`);
* `src/board.rs` — the 64-bit packed board (`Board`), cell getters/setters,
  row/column extraction, `transpose`, the four directional moves, the
  empty-tile iterator, `count_distinct_tiles`, and the `Vec<u16>` conversions;
* `src/evaluators.rs` — row/column evaluators and the precomputed wrapper;
* `src/solver.rs` — `next_best_move` / `eval_max` / `eval_average` with the
  transposition table.

Machine integers are modelled as `Nat` with explicit `% 2^w` at the points
where the Rust code can wrap (`u64` / `u16` shifts); `f32` scores are modelled
as exact rationals (`ℚ`); the mutable transposition table is threaded as an
explicit association list; Rust panics are modelled by `Option`.
-/

namespace Game2048

/-- The four directions in which the tiles can be moved (`board.rs`). -/
inductive Direction where
  | left
  | right
  | up
  | down
deriving DecidableEq, Repr, Fintype

/-- `Direction::all()`: the fixed enumeration order Left, Right, Up, Down. -/
def Direction.all : List Direction :=
  [Direction.left, Direction.right, Direction.up, Direction.down]

/-- Position of a direction in the `Direction::all()` enumeration order. -/
def Direction.index : Direction → ℕ
  | Direction.left => 0
  | Direction.right => 1
  | Direction.up => 2
  | Direction.down => 3

/-- `utils::get_exponent`: maps a tile value to its 4-bit exponent.  The Rust
function panics on any other input, modelled by `none`. -/
def get_exponent (value : ℕ) : Option ℕ :=
  match value with
  | 0 => some 0
  | 2 => some 1
  | 4 => some 2
  | 8 => some 3
  | 16 => some 4
  | 32 => some 5
  | 64 => some 6
  | 128 => some 7
  | 256 => some 8
  | 512 => some 9
  | 1024 => some 10
  | 2048 => some 11
  | 4096 => some 12
  | 8192 => some 13
  | 16384 => some 14
  | 32768 => some 15
  | _ => none

/-- `utils::set_value_in_row`: write the 4-bit `value` into nibble `idx`
(0 = leftmost) of a 16-bit row.  The `u16` shift of the update mask wraps,
hence the `% 2^16`. -/
def set_value_in_row (row idx value : ℕ) : ℕ :=
  (row &&& (65535 ^^^ (15 <<< (4 * (3 - idx))))) ||| ((value <<< (4 * (3 - idx))) % 65536)

/-- Loop state of the `get_left_move` / `get_right_move` row scans
(`utils.rs`): the mutable locals of the Rust loop. -/
structure MoveScan where
  result : ℕ
  value_idx : ℕ
  prev_value : ℕ
  new_value_idx : ℕ
  moved : Bool
deriving Repr

/-- One iteration of the `get_left_move` loop body at index `i`. -/
def left_move_step (row : ℕ) (s : MoveScan) (i : ℕ) : MoveScan :=
  let value := (row &&& (15 <<< (4 * (3 - i)))) >>> (4 * (3 - i))
  if value = 0 then
    { s with moved := true, value_idx := s.value_idx + 1 }
  else if value = s.prev_value then
    { result := set_value_in_row (set_value_in_row s.result (s.new_value_idx - 1) (value + 1))
        s.value_idx 0,
      value_idx := s.value_idx + 1, prev_value := 255,
      new_value_idx := s.new_value_idx, moved := true }
  else
    { result := if s.moved then
        set_value_in_row (set_value_in_row s.result s.new_value_idx value) s.value_idx 0
      else s.result,
      value_idx := s.value_idx + 1, prev_value := value,
      new_value_idx := s.new_value_idx + 1, moved := s.moved }

/-- `utils::get_left_move`: slide-and-merge a 16-bit row to the left. -/
def get_left_move (row : ℕ) : ℕ :=
  (List.foldl (left_move_step row)
    { result := row, value_idx := 0, prev_value := 255, new_value_idx := 0, moved := false }
    [0, 1, 2, 3]).result

/-- One iteration of the `get_right_move` loop body at index `i`
(the loop runs `i = 3, 2, 1, 0`).  The `if new_value_idx > 0` and
`if value_idx > 0` guards coincide with truncated `Nat` subtraction. -/
def right_move_step (row : ℕ) (s : MoveScan) (i : ℕ) : MoveScan :=
  let value := (row &&& (15 <<< (4 * (3 - i)))) >>> (4 * (3 - i))
  if value = 0 then
    { s with moved := true, value_idx := s.value_idx - 1 }
  else if value = s.prev_value then
    { result := set_value_in_row (set_value_in_row s.result (s.new_value_idx + 1) (value + 1))
        s.value_idx 0,
      value_idx := s.value_idx - 1, prev_value := 255,
      new_value_idx := s.new_value_idx, moved := true }
  else
    { result := if s.moved then
        set_value_in_row (set_value_in_row s.result s.new_value_idx value) s.value_idx 0
      else s.result,
      value_idx := s.value_idx - 1, prev_value := value,
      new_value_idx := s.new_value_idx - 1, moved := s.moved }

/-- `utils::get_right_move`: slide-and-merge a 16-bit row to the right. -/
def get_right_move (row : ℕ) : ℕ :=
  (List.foldl (right_move_step row)
    { result := row, value_idx := 3, prev_value := 255, new_value_idx := 3, moved := false }
    [3, 2, 1, 0]).result

/-- `LEFT_MOVES_TABLE` (`board.rs`): the lazily built table maps every 16-bit
row `r` to `get_left_move r` — `build_left_moves_table` initialises all 65536
entries by enumerating the four nibbles of every row — so the lookup
`LEFT_MOVES_TABLE[r]` is the function `get_left_move`. -/
def LEFT_MOVES_TABLE (row : ℕ) : ℕ := get_left_move row

/-- `RIGHT_MOVES_TABLE` (`board.rs`), analogously. -/
def RIGHT_MOVES_TABLE (row : ℕ) : ℕ := get_right_move row

/-- `Board` (`board.rs`): 16 tiles packed as 4-bit exponents in one `u64`;
tile index 0 occupies the highest nibble.  `state` is a `Nat` standing for a
`u64`, i.e. a value `< 2^64` wherever the 64-bit width matters. -/
@[ext]
structure Board where
  state : ℕ
deriving DecidableEq, Repr

/-- `Board::get_exponent_value`. -/
def Board.get_exponent_value (b : Board) (tile_idx : ℕ) : ℕ :=
  (b.state >>> (4 * (15 - tile_idx))) &&& 15

/-- `Board::get_value`. -/
def Board.get_value (b : Board) (tile_idx : ℕ) : ℕ :=
  let exponent := b.get_exponent_value tile_idx
  if exponent = 0 then 0 else 2 <<< (exponent - 1)

/-- `Board::set_value_by_exponent`: write `value_exponent` (a `u64` in the
source, not masked to 4 bits!) into nibble `tile_idx`.  The `u64` shift of
the update mask wraps, hence `% 2^64`. -/
def Board.set_value_by_exponent (b : Board) (tile_idx value_exponent : ℕ) : Board :=
  let bits_shift := (15 - tile_idx) * 4
  let clear_mask := 0xFFFFFFFFFFFFFFFF ^^^ (15 <<< bits_shift)
  let update_mask := (value_exponent <<< bits_shift) % 2 ^ 64
  { state := (b.state &&& clear_mask) ||| update_mask }

/-- `Board::set_value`: goes through `get_exponent`, which panics (`none`) on
invalid tile values. -/
def Board.set_value (b : Board) (tile_idx tile_value : ℕ) : Option Board :=
  (get_exponent tile_value).map fun exponent => b.set_value_by_exponent tile_idx exponent

/-- `Board::rows`: the four 16-bit rows, top row first. -/
def Board.rows (b : Board) : List ℕ :=
  [(b.state &&& 0xFFFF000000000000) >>> 48,
   (b.state &&& 0x0000FFFF00000000) >>> 32,
   (b.state &&& 0x00000000FFFF0000) >>> 16,
   b.state &&& 0x000000000000FFFF]

/-- `Board::transpose`: nneonneo's branchless 4×4 nibble-matrix transpose.
None of the shifts can overflow 64 bits, so no wrapping is needed. -/
def Board.transpose (b : Board) : Board :=
  let x := b.state
  let a1 := x &&& 0xF0F00F0FF0F00F0F
  let a2 := x &&& 0x0000F0F00000F0F0
  let a3 := x &&& 0x0F0F00000F0F0000
  let a := a1 ||| (a2 <<< 12) ||| (a3 >>> 12)
  let b1 := a &&& 0xFF00FF0000FF00FF
  let b2 := a &&& 0x00FF00FF00000000
  let b3 := a &&& 0x00000000FF00FF00
  { state := b1 ||| (b2 >>> 24) ||| (b3 <<< 24) }

/-- `Board::columns`. -/
def Board.columns (b : Board) : List ℕ := b.transpose.rows

/-- Modelled from the spec: `Board::get_row` is called by `evaluators.rs` but
absent from `src/board.rs` (which only has `rows()`); per spec §4.1,
"`row(i)` … extract the 16-bit packed representation of row `i`". -/
def Board.get_row (b : Board) (i : ℕ) : ℕ := b.rows.getD i 0

/-- Modelled from the spec: `Board::get_column`, analogously, via `columns()`. -/
def Board.get_column (b : Board) (i : ℕ) : ℕ := b.columns.getD i 0

/-- `Board::into_left`: row-wise lookup in `LEFT_MOVES_TABLE`, reassembled by
OR-ing into an initially empty board. -/
def Board.into_left (b : Board) : Board :=
  { state := b.rows.enum.foldl
      (fun acc p => acc ||| (LEFT_MOVES_TABLE p.2 <<< (16 * (3 - p.1)))) 0 }

/-- `Board::into_right`. -/
def Board.into_right (b : Board) : Board :=
  { state := b.rows.enum.foldl
      (fun acc p => acc ||| (RIGHT_MOVES_TABLE p.2 <<< (16 * (3 - p.1)))) 0 }

/-- `Board::into_up`: transpose, slide each column (as a row) left, and
scatter the four nibbles back into column layout. -/
def Board.into_up (b : Board) : Board :=
  { state := b.transpose.rows.enum.foldl
      (fun acc p =>
        let up_col := LEFT_MOVES_TABLE p.2
        let col_shift := 4 * (3 - p.1)
        acc ||| ((up_col &&& 0xF000) <<< (36 + col_shift))
            ||| ((up_col &&& 0xF00) <<< (24 + col_shift))
            ||| ((up_col &&& 0xF0) <<< (12 + col_shift))
            ||| ((up_col &&& 0xF) <<< col_shift)) 0 }

/-- `Board::into_down`. -/
def Board.into_down (b : Board) : Board :=
  { state := b.transpose.rows.enum.foldl
      (fun acc p =>
        let up_col := RIGHT_MOVES_TABLE p.2
        let col_shift := 4 * (3 - p.1)
        acc ||| ((up_col &&& 0xF000) <<< (36 + col_shift))
            ||| ((up_col &&& 0xF00) <<< (24 + col_shift))
            ||| ((up_col &&& 0xF0) <<< (12 + col_shift))
            ||| ((up_col &&& 0xF) <<< col_shift)) 0 }

/-- `Board::move_to`. -/
def Board.move_to (b : Board) (direction : Direction) : Board :=
  match direction with
  | Direction.left => b.into_left
  | Direction.right => b.into_right
  | Direction.up => b.into_up
  | Direction.down => b.into_down

/-- The `EmptyTilesIterator` loop (`board.rs`): 16 steps, shifting the state
left a nibble at a time; a tile is empty when the top 4 bits are zero
(`leading_zeros() >= 4`).  `fuel` counts the remaining steps. -/
def empty_tiles_loop : ℕ → ℕ → ℕ → List ℕ
  | 0, _, _ => []
  | fuel + 1, s, idx =>
      (if s >>> 60 = 0 then [idx] else []) ++
        empty_tiles_loop fuel ((s <<< 4) % 2 ^ 64) (idx + 1)

/-- `Board::empty_tiles_indices`, in ascending index order. -/
def Board.empty_tiles_indices (b : Board) : List ℕ :=
  empty_tiles_loop 16 (b.state % 2 ^ 64) 0

/-- `Board::count_empty_tiles`. -/
def Board.count_empty_tiles (b : Board) : ℕ := b.empty_tiles_indices.length

/-- The `while state != 0` bitset loop of `count_distinct_tiles`; a `u64`
state has at most 16 nibbles, so fuel 16 suffices. -/
def distinct_bitset_loop : ℕ → ℕ → ℕ
  | 0, _ => 0
  | fuel + 1, s => if s = 0 then 0 else (1 <<< (s &&& 15)) ||| distinct_bitset_loop fuel (s >>> 4)

/-- The `while bitset != 0` popcount loop of `count_distinct_tiles`; the
bitset fits in 16 bits, so fuel 16 suffices. -/
def popcount_loop : ℕ → ℕ → ℕ
  | 0, _ => 0
  | fuel + 1, bs => if bs = 0 then 0 else popcount_loop fuel (bs &&& (bs - 1)) + 1

/-- `Board::count_distinct_tiles`: number of distinct nonzero exponents. -/
def Board.count_distinct_tiles (b : Board) : ℕ :=
  popcount_loop 16 ((distinct_bitset_loop 16 (b.state % 2 ^ 64)) >>> 1)

/-- One iteration of the `From<Vec<u16>>` loop: `state <<= 4` (a wrapping
`u64` shift) then `state |= get_exponent(tile_value)`; the panic of
`get_exponent` on an invalid value propagates as `none`. -/
def from_vec_step (acc : Option ℕ) (tile_value : ℕ) : Option ℕ :=
  acc.bind fun s => (get_exponent tile_value).map fun e => ((s <<< 4) % 2 ^ 64) ||| e

/-- `impl From<Vec<u16>> for Board`: shift each tile's exponent in from the
right; `get_exponent` panics (`none`) on an invalid tile value, and there is
no check on the number of tiles. -/
def board_from_vec (tiles : List ℕ) : Option Board :=
  (tiles.foldl from_vec_step (some 0)).map Board.mk

/-- The `BoardIntoIterator` loop: 16 exponents read from the top nibble down. -/
def board_exponents_loop : ℕ → ℕ → List ℕ
  | 0, _ => []
  | fuel + 1, s => (s >>> 60) :: board_exponents_loop fuel ((s <<< 4) % 2 ^ 64)

/-- `impl From<Board> for Vec<u16>`: the 16 tile values in row-major order. -/
def board_to_vec (b : Board) : List ℕ :=
  (board_exponents_loop 16 (b.state % 2 ^ 64)).map
    fun tile_exponent => if tile_exponent = 0 then 0 else 2 <<< (tile_exponent - 1)

/-!
## Evaluators (`evaluators.rs`)

`f32` scores are modelled as exact rationals.  A `RowColumnEvaluator` trait
object is a pair of a row-scoring function and a game-over penalty.
-/

/-- The `RowColumnEvaluator` capability: `evaluate_row` and
`gameover_penalty`. -/
structure RowColumnEvaluator where
  evaluate_row : ℕ → ℚ
  gameover_penalty : ℚ

/-- The blanket `impl BoardEvaluator for T: RowColumnEvaluator`:
whole-board score is the sum over the four rows and four columns of
`evaluate_row`. -/
def RowColumnEvaluator.evaluate (E : RowColumnEvaluator) (board : Board) : ℚ :=
  ((List.range 4).map fun i => E.evaluate_row (board.get_row i) + E.evaluate_row (board.get_column i)).sum

/-- `PrecomputedBoardEvaluator`: a vector caching `evaluate_row` over all
65536 row encodings, plus the copied game-over penalty. -/
structure PrecomputedBoardEvaluator where
  row_cache : List ℚ
  gameover_penalty : ℚ

/-- `PrecomputedBoardEvaluator::new`. -/
def PrecomputedBoardEvaluator.new (evaluator : RowColumnEvaluator) : PrecomputedBoardEvaluator :=
  { row_cache := (List.range 65536).map evaluator.evaluate_row,
    gameover_penalty := evaluator.gameover_penalty }

/-- `impl BoardEvaluator for PrecomputedBoardEvaluator`: eight table lookups
and a sum. -/
def PrecomputedBoardEvaluator.evaluate (P : PrecomputedBoardEvaluator) (board : Board) : ℚ :=
  ((List.range 4).map fun i =>
    P.row_cache.getD (board.get_row i) 0 + P.row_cache.getD (board.get_column i) 0).sum

/-!
## Solver (`solver.rs`)

The expectiminimax search.  The mutable `FnvHashMap<Board, (f32, usize)>`
transposition table is threaded explicitly as an association list whose
`insert` conses (the fresh binding shadows any stale one on lookup, exactly
like `HashMap::insert` replacement).
-/

/-- The solver configuration: the fields of `struct Solver` except the
transposition table, with the boxed `BoardEvaluator` as a plain function. -/
structure Solver where
  board_evaluator : Board → ℚ
  proba_4 : ℚ
  base_max_search_depth : ℕ
  gameover_penalty : ℚ
  min_branch_proba : ℚ
  distinct_tiles_threshold : ℕ

/-- The transposition table: board ↦ (cached value, cached remaining depth). -/
abbrev TTable : Type := List (Board × ℚ × ℕ)

/-- `FnvHashMap::get`. -/
def table_get : TTable → Board → Option (ℚ × ℕ)
  | [], _ => none
  | (b', v) :: rest, b => if b' = b then some v else table_get rest b

/-- `FnvHashMap::insert` (the new binding shadows any previous one). -/
def table_insert (t : TTable) (b : Board) (v : ℚ × ℕ) : TTable := (b, v) :: t

/-- `Iterator::max_by` with `partial_cmp(..).unwrap()`: the *last* of several
equally maximal elements is returned (`cmp::max_by` keeps the second argument
unless it is strictly smaller). -/
def rust_max_by : List (Direction × ℚ) → Option (Direction × ℚ)
  | [] => none
  | x :: xs => some (xs.foldl (fun acc y => if y.2 < acc.2 then acc else y) x)

/-- One step of the `filter_map` in `Solver::eval_max` (one direction `d`,
with the mutable solver state threaded as the table `acc.2`): a direction
whose move leaves the board unchanged is dropped, any other is scored by the
chance evaluation `ev_avg`.  Polymorphic in the table type so the same step
serves the spec's gated variant. -/
def cand_step {T : Type} (ev_avg : T → Board → ℚ → ℚ × T) (board : Board) (branch_proba : ℚ)
    (acc : List (Direction × ℚ) × T) (d : Direction) : List (Direction × ℚ) × T :=
  let new_board := board.move_to d
  if new_board = board then acc
  else
    let r := ev_avg acc.2 new_board branch_proba
    (acc.1 ++ [(d, r.1)], r.2)

/-- `Solver::eval_max`, parametric in the chance-node evaluation `ev_avg`
(which carries the remaining depth): filter the four directions in
enumeration order, dropping any whose move leaves the board unchanged,
score the rest via `ev_avg`, and take `max_by`. -/
def eval_max_core (ev_avg : TTable → Board → ℚ → ℚ × TTable) (t : TTable) (board : Board)
    (branch_proba : ℚ) : Option (Direction × ℚ) × TTable :=
  let cands := Direction.all.foldl (cand_step ev_avg board branch_proba) ([], t)
  (rust_max_by cands.1, cands.2)

/-- The non-memoized body of `Solver::eval_average` once the depth-0 /
probability cutoff has been decided: `ev_max` is `eval_max` at depth
`remaining_depth - 1`, `store_depth` the depth recorded in the table. -/
def eval_average_expand (cfg : Solver)
    (ev_max : TTable → Board → ℚ → Option (Direction × ℚ) × TTable)
    (store_depth : ℕ) (t : TTable) (board : Board) (branch_proba : ℚ) : ℚ × TTable :=
  let empty_tiles_indices := board.empty_tiles_indices
  let nb_empty_tiles := empty_tiles_indices.length
  let draws := empty_tiles_indices.flatMap
    fun idx => [(idx, 1, 1 - cfg.proba_4), (idx, 2, cfg.proba_4)]
  let folded := draws.foldl
    (fun (acc : ℚ × TTable) dr =>
      let board_with_draw := board.set_value_by_exponent dr.1 dr.2.1
      let r := ev_max acc.2 board_with_draw (branch_proba * dr.2.2)
      let max_score := (r.1.map Prod.snd).getD cfg.gameover_penalty
      (acc.1 + max_score * dr.2.2, r.2))
    (0, t)
  let average := folded.1 / (nb_empty_tiles : ℚ)
  (average, table_insert folded.2 board (average, store_depth))

/-- `Solver::eval_average`, by structural recursion on the remaining depth.
A cached entry is reused whenever its recorded depth is `≥` the requested
one (at depth 0 every hit qualifies); otherwise the node is evaluated — a
static evaluation at the depth/probability cutoff, a chance-node expansion
over all empty cells and both draws otherwise — and inserted at the current
depth. -/
def eval_average (cfg : Solver) : (remaining_depth : ℕ) → TTable → Board → ℚ → ℚ × TTable
  | 0, t, board, _branch_proba =>
      (match table_get t board with
       | some vd => (vd.1, t)
       | none =>
           let average := cfg.board_evaluator board
           (average, table_insert t board (average, 0)))
  | d + 1, t, board, branch_proba =>
      let ev_avg : TTable → Board → ℚ → ℚ × TTable := fun t' b' p' => eval_average cfg d t' b' p'
      (match table_get t board with
       | some vd =>
           if d + 1 ≤ vd.2 then (vd.1, t)
           else if branch_proba < cfg.min_branch_proba then
             let average := cfg.board_evaluator board
             (average, table_insert t board (average, d + 1))
           else
             eval_average_expand cfg (eval_max_core ev_avg) (d + 1) t board branch_proba
       | none =>
           if branch_proba < cfg.min_branch_proba then
             let average := cfg.board_evaluator board
             (average, table_insert t board (average, d + 1))
           else
             eval_average_expand cfg (eval_max_core ev_avg) (d + 1) t board branch_proba)
termination_by structural d => d

/-- `Solver::eval_max` at a given remaining depth. -/
def eval_max (cfg : Solver) (remaining_depth : ℕ) :
    TTable → Board → ℚ → Option (Direction × ℚ) × TTable :=
  eval_max_core (eval_average cfg remaining_depth)

/-- The adaptive depth of `Solver::next_best_move`:
`max(base_max_search_depth as isize, count_distinct_tiles as isize - distinct_tiles_threshold as isize) as usize`. -/
def Solver.max_depth (cfg : Solver) (board : Board) : ℕ :=
  (max (cfg.base_max_search_depth : ℤ)
    ((board.count_distinct_tiles : ℤ) - (cfg.distinct_tiles_threshold : ℤ))).toNat

/-- `Solver::next_best_move`: clear the table, run `eval_max` at the adaptive
depth with branch probability 1, and keep the direction. -/
def next_best_move (cfg : Solver) (board : Board) : Option Direction :=
  ((eval_max cfg (cfg.max_depth board) [] board 1).1.map Prod.fst)

/-- The direction/score candidates examined (in enumeration order) by the
top-level `eval_max` of a `next_best_move` call. -/
def top_candidates (cfg : Solver) (board : Board) : List (Direction × ℚ) :=
  (Direction.all.foldl
    (cand_step (eval_average cfg (cfg.max_depth board)) board 1) (([] : List (Direction × ℚ)), ([] : TTable))).1

/-!
## The depth- and probability-gated transposition policy

Modelled from the spec: spec §3 and §4.3 describe a transposition table
"mapping Board → (cached score, cached search depth or branch probability at
which it was computed)" where "a cached entry is only valid for reuse if it
was computed at a depth/probability at least as strict as the current
request; otherwise it must be recomputed and the entry replaced".  This
variant records both the depth and the branch probability and only reuses an
entry computed at a depth `≥` and a branch probability `≥` (i.e. at least as
little pruned as) the current request.  It is the comparison point for the
cache-validity claim about `solver.rs`.
-/

/-- The gated table: board ↦ (value, depth, branch probability). -/
abbrev GTable : Type := List (Board × ℚ × ℕ × ℚ)

/-- Lookup in the gated table. -/
def gtable_get : GTable → Board → Option (ℚ × ℕ × ℚ)
  | [], _ => none
  | (b', v) :: rest, b => if b' = b then some v else gtable_get rest b

/-- Insert into the gated table (shadowing any stale entry). -/
def gtable_insert (t : GTable) (b : Board) (v : ℚ × ℕ × ℚ) : GTable := (b, v) :: t

/-- `eval_max` parametric in the gated chance evaluation. -/
def eval_max_core_gated (ev_avg : GTable → Board → ℚ → ℚ × GTable) (t : GTable) (board : Board)
    (branch_proba : ℚ) : Option (Direction × ℚ) × GTable :=
  let cands := Direction.all.foldl (cand_step ev_avg board branch_proba) ([], t)
  (rust_max_by cands.1, cands.2)

/-- Chance-node expansion under the gated policy (identical arithmetic). -/
def eval_average_expand_gated (cfg : Solver)
    (ev_max : GTable → Board → ℚ → Option (Direction × ℚ) × GTable)
    (store_depth : ℕ) (t : GTable) (board : Board) (branch_proba : ℚ) : ℚ × GTable :=
  let empty_tiles_indices := board.empty_tiles_indices
  let nb_empty_tiles := empty_tiles_indices.length
  let draws := empty_tiles_indices.flatMap
    fun idx => [(idx, 1, 1 - cfg.proba_4), (idx, 2, cfg.proba_4)]
  let folded := draws.foldl
    (fun (acc : ℚ × GTable) dr =>
      let board_with_draw := board.set_value_by_exponent dr.1 dr.2.1
      let r := ev_max acc.2 board_with_draw (branch_proba * dr.2.2)
      let max_score := (r.1.map Prod.snd).getD cfg.gameover_penalty
      (acc.1 + max_score * dr.2.2, r.2))
    (0, t)
  let average := folded.1 / (nb_empty_tiles : ℚ)
  (average, gtable_insert folded.2 board (average, store_depth, branch_proba))

/-- Modelled from the spec: `eval_average` under the depth- *and*
probability-gated reuse policy of spec §4.3 — a memoized value is returned
only if it was computed at a remaining depth `≥` and a branch probability
`≥` the current request; a stale entry is recomputed and replaced. -/
def eval_average_gated (cfg : Solver) : (remaining_depth : ℕ) → GTable → Board → ℚ → ℚ × GTable
  | 0, t, board, branch_proba =>
      (match gtable_get t board with
       | some vd =>
           if branch_proba ≤ vd.2.2 then (vd.1, t)
           else
             let average := cfg.board_evaluator board
             (average, gtable_insert t board (average, 0, branch_proba))
       | none =>
           let average := cfg.board_evaluator board
           (average, gtable_insert t board (average, 0, branch_proba)))
  | d + 1, t, board, branch_proba =>
      let ev_avg : GTable → Board → ℚ → ℚ × GTable :=
        fun t' b' p' => eval_average_gated cfg d t' b' p'
      (match gtable_get t board with
       | some vd =>
           if d + 1 ≤ vd.2.1 ∧ branch_proba ≤ vd.2.2 then (vd.1, t)
           else if branch_proba < cfg.min_branch_proba then
             let average := cfg.board_evaluator board
             (average, gtable_insert t board (average, d + 1, branch_proba))
           else
             eval_average_expand_gated cfg (eval_max_core_gated ev_avg) (d + 1) t board branch_proba
       | none =>
           if branch_proba < cfg.min_branch_proba then
             let average := cfg.board_evaluator board
             (average, gtable_insert t board (average, d + 1, branch_proba))
           else
             eval_average_expand_gated cfg (eval_max_core_gated ev_avg) (d + 1) t board branch_proba)
termination_by structural d => d

/-!
## Helper lemmas about `rust_max_by` and the candidate fold
-/

lemma rust_max_fold_mem (xs : List (Direction × ℚ)) (acc : Direction × ℚ) :
    xs.foldl (fun a y => if y.2 < a.2 then a else y) acc ∈ acc :: xs := by
  induction xs generalizing acc with
  | nil => simp
  | cons x xs ih =>
      simp only [List.foldl_cons]
      rcases List.mem_cons.1 (ih (if x.2 < acc.2 then acc else x)) with h | h
      · rw [h]
        split
        · exact List.mem_cons_self _ _
        · exact List.mem_cons_of_mem _ (List.mem_cons_self _ _)
      · exact List.mem_cons_of_mem _ (List.mem_cons_of_mem _ h)

lemma rust_max_by_mem {l : List (Direction × ℚ)} {p : Direction × ℚ}
    (h : rust_max_by l = some p) : p ∈ l := by
  cases l with
  | nil => simp [rust_max_by] at h
  | cons x xs =>
      simp only [rust_max_by, Option.some.injEq] at h
      exact h ▸ rust_max_fold_mem xs x

lemma rust_max_by_none_iff (l : List (Direction × ℚ)) : rust_max_by l = none ↔ l = [] := by
  cases l <;> simp [rust_max_by]

lemma rust_max_fold_const (xs : List (Direction × ℚ)) (acc : Direction × ℚ)
    (h : ∀ q ∈ xs, q.2 < acc.2) :
    xs.foldl (fun a y => if y.2 < a.2 then a else y) acc = acc := by
  induction xs generalizing acc with
  | nil => rfl
  | cons x xs ih =>
      simp only [List.foldl_cons]
      rw [if_pos (h x (List.mem_cons_self x xs))]
      exact ih acc fun q hq => h q (List.mem_cons_of_mem _ hq)

lemma rust_max_fold_eq (p : Direction × ℚ) :
    ∀ (xs : List (Direction × ℚ)) (acc : Direction × ℚ),
      p ∈ xs → (∀ q ∈ xs, q.2 ≤ p.2) → acc.2 ≤ p.2 →
      (xs.Pairwise fun a c => a.1.index < c.1.index) →
      (∀ q ∈ xs, q.2 = p.2 → q.1.index ≤ p.1.index) →
      xs.foldl (fun a y => if y.2 < a.2 then a else y) acc = p := by
  intro xs
  induction xs with
  | nil => intro acc h; cases h
  | cons x xs ih =>
      intro acc hmem hmax hacc hpair hlast
      simp only [List.foldl_cons]
      rcases List.mem_cons.1 hmem with rfl | hmem'
      · rw [if_neg (not_lt.2 hacc)]
        apply rust_max_fold_const
        intro q hq
        rcases lt_or_eq_of_le (hmax q (List.mem_cons_of_mem _ hq)) with h | h
        · exact h
        · exact absurd (hlast q (List.mem_cons_of_mem _ hq) h)
            (by have := (List.pairwise_cons.1 hpair).1 q hq; omega)
      · refine ih _ hmem' (fun q hq => hmax q (List.mem_cons_of_mem _ hq)) ?_
          (List.pairwise_cons.1 hpair).2
          (fun q hq h => hlast q (List.mem_cons_of_mem _ hq) h)
        split
        · exact hacc
        · exact hmax x (List.mem_cons_self _ _)

lemma rust_max_by_eq (xs : List (Direction × ℚ)) (p : Direction × ℚ)
    (hmem : p ∈ xs) (hpair : xs.Pairwise fun a c => a.1.index < c.1.index)
    (hmax : ∀ q ∈ xs, q.2 ≤ p.2)
    (hlast : ∀ q ∈ xs, q.2 = p.2 → q.1.index ≤ p.1.index) :
    rust_max_by xs = some p := by
  cases xs with
  | nil => cases hmem
  | cons x xs =>
      simp only [rust_max_by, Option.some.injEq]
      rcases List.mem_cons.1 hmem with rfl | hmem'
      · apply rust_max_fold_const
        intro q hq
        rcases lt_or_eq_of_le (hmax q (List.mem_cons_of_mem _ hq)) with h | h
        · exact h
        · exact absurd (hlast q (List.mem_cons_of_mem _ hq) h)
            (by have := (List.pairwise_cons.1 hpair).1 q hq; omega)
      · exact rust_max_fold_eq p xs x hmem'
          (fun q hq => hmax q (List.mem_cons_of_mem _ hq))
          (hmax x (List.mem_cons_self _ _))
          (List.pairwise_cons.1 hpair).2
          (fun q hq h => hlast q (List.mem_cons_of_mem _ hq) h)

lemma cand_fold_legal {T : Type} (ev : T → Board → ℚ → ℚ × T) (b : Board) (pr : ℚ) :
    ∀ (l : List Direction) (acc : List (Direction × ℚ)) (t : T),
      (∀ q ∈ acc, b.move_to q.1 ≠ b) →
      ∀ q ∈ (l.foldl (cand_step ev b pr) (acc, t)).1, b.move_to q.1 ≠ b := by
  intro l
  induction l with
  | nil => intro acc t hacc q hq; exact hacc q hq
  | cons d l ih =>
      intro acc t hacc q hq
      simp only [List.foldl_cons, cand_step] at hq
      by_cases hd : b.move_to d = b
      · rw [if_pos hd] at hq
        exact ih acc t hacc q hq
      · rw [if_neg hd] at hq
        refine ih _ _ ?_ q hq
        intro q' hq'
        rcases List.mem_append.1 hq' with h | h
        · exact hacc q' h
        · rcases List.mem_singleton.1 h with rfl
          exact hd

lemma cand_fold_nil_iff {T : Type} (ev : T → Board → ℚ → ℚ × T) (b : Board) (pr : ℚ) :
    ∀ (l : List Direction) (acc : List (Direction × ℚ)) (t : T),
      ((l.foldl (cand_step ev b pr) (acc, t)).1 = [] ↔
        acc = [] ∧ ∀ d ∈ l, b.move_to d = b) := by
  intro l
  induction l with
  | nil => intro acc t; simp
  | cons d l ih =>
      intro acc t
      simp only [List.foldl_cons, cand_step]
      by_cases hd : b.move_to d = b
      · rw [if_pos hd, ih]
        simp [List.forall_mem_cons, hd]
      · rw [if_neg hd, ih]
        simp [List.forall_mem_cons, hd]

lemma cand_fold_pairwise {T : Type} (ev : T → Board → ℚ → ℚ × T) (b : Board) (pr : ℚ) :
    ∀ (l : List Direction) (acc : List (Direction × ℚ)) (t : T),
      acc.Pairwise (fun a c => a.1.index < c.1.index) →
      (∀ q ∈ acc, ∀ d ∈ l, q.1.index < d.index) →
      l.Pairwise (fun a c => a.index < c.index) →
      (l.foldl (cand_step ev b pr) (acc, t)).1.Pairwise (fun a c => a.1.index < c.1.index) := by
  intro l
  induction l with
  | nil => intro acc t hacc _ _; exact hacc
  | cons d l ih =>
      intro acc t hacc hcross hpair
      have hpair' := List.pairwise_cons.1 hpair
      simp only [List.foldl_cons, cand_step]
      by_cases hd : b.move_to d = b
      · rw [if_pos hd]
        exact ih acc t hacc (fun q hq d' hd' => hcross q hq d' (List.mem_cons_of_mem _ hd'))
          hpair'.2
      · rw [if_neg hd]
        apply ih
        · rw [List.pairwise_append]
          refine ⟨hacc, List.pairwise_singleton _ _, ?_⟩
          intro q hq q' hq'
          rcases List.mem_singleton.1 hq' with rfl
          exact hcross q hq d (List.mem_cons_self _ _)
        · intro q hq d' hd'
          rcases List.mem_append.1 hq with h | h
          · exact hcross q h d' (List.mem_cons_of_mem _ hd')
          · rcases List.mem_singleton.1 h with rfl
            exact hpair'.1 d' hd'
        · exact hpair'.2

lemma top_candidates_legal (cfg : Solver) (b : Board) :
    ∀ q ∈ top_candidates cfg b, b.move_to q.1 ≠ b :=
  cand_fold_legal _ b 1 Direction.all [] [] (by simp)

lemma top_candidates_pairwise (cfg : Solver) (b : Board) :
    (top_candidates cfg b).Pairwise (fun a c => a.1.index < c.1.index) :=
  cand_fold_pairwise _ b 1 Direction.all [] [] (by simp) (by simp) (by decide)

lemma top_candidates_nil_iff (cfg : Solver) (b : Board) :
    top_candidates cfg b = [] ↔ ∀ d : Direction, b.move_to d = b := by
  rw [top_candidates, cand_fold_nil_iff]
  constructor
  · rintro ⟨-, h⟩ d
    cases d <;> exact h _ (by simp [Direction.all])
  · intro h
    exact ⟨rfl, fun d _ => h d⟩

lemma next_best_move_eq (cfg : Solver) (b : Board) :
    next_best_move cfg b = (rust_max_by (top_candidates cfg b)).map Prod.fst := rfl

/-!
## Concrete solver instances used as counterexamples and witnesses
-/

/-- A solver whose evaluator scores every board 0, with base depth 0 (so the
search is a pure one-ply comparison of chance values). -/
def tie_cfg : Solver :=
  { board_evaluator := fun _ => 0, proba_4 := 1 / 10, base_max_search_depth := 0,
    gameover_penalty := -200, min_branch_proba := 1 / 100, distinct_tiles_threshold := 4 }

/-- A board with a single `2` tile in the top-left corner: `Right` and `Down`
are its only legal moves, and under `tie_cfg` both score 0. -/
def tie_board : Board := ⟨0x1000000000000000⟩

/-- A solver for the transposition-cache experiment: evaluator 100 on one
distinguished board and 0 elsewhere, `proba_4 = 1/4`,
`min_branch_proba = 1/2`, depth 3. -/
def cache_cfg : Solver :=
  { board_evaluator := fun b => if b.state = 0x34507890ABC6DEF2 then 100 else 0,
    proba_4 := 1 / 4, base_max_search_depth := 3, gameover_penalty := -200,
    min_branch_proba := 1 / 2, distinct_tiles_threshold := 16 }

/-- The cache-experiment board: twelve distinct tiles `8 … 32768` packed left,
the last column empty except for a `64` blocking its top cell. -/
def cache_board : Board := ⟨0x34567890ABC0DEF0⟩

/-!
## Claim theorems: solver behaviour
-/

/-- C1 (counterexample): on `tie_board` under `tie_cfg`, the only legal
directions are Right and Down and both CHANCE scores are 0 (an exact tie),
yet `next_best_move` returns Down — the *last* tied direction in the
enumeration order Left, Right, Up, Down, not the first (Right) as claimed:
Rust's `Iterator::max_by` keeps the last of equally maximal elements. -/
theorem c1_tie_counterexample :
    top_candidates tie_cfg tie_board = [(Direction.right, 0), (Direction.down, 0)] ∧
    next_best_move tie_cfg tie_board = some Direction.down ∧
    next_best_move tie_cfg tie_board ≠ some Direction.right := by
  refine ⟨by decide!, by decide!, by decide!⟩

/-- C1 (amended): for every solver configuration and board, if a legal
direction `d` attains the maximal CHANCE score among the candidates examined
by `next_best_move` and no tied candidate comes later in the enumeration
order Left, Right, Up, Down, then `next_best_move` returns `d`: ties between
equally scored legal directions are broken in favour of the *last* such
direction in that order. -/
theorem c1_tie_breaking_last (cfg : Solver) (b : Board) (d : Direction) (s : ℚ)
    (hmem : (d, s) ∈ top_candidates cfg b)
    (hmax : ∀ q ∈ top_candidates cfg b, q.2 ≤ s)
    (hlast : ∀ q ∈ top_candidates cfg b, q.2 = s → q.1.index ≤ d.index) :
    next_best_move cfg b = some d := by
  rw [next_best_move_eq,
    rust_max_by_eq (top_candidates cfg b) (d, s) hmem (top_candidates_pairwise cfg b) hmax hlast]
  rfl

/-- Witness for `c1_tie_breaking_last` at the concrete tie instance. -/
theorem c1_tie_breaking_last_witness : next_best_move tie_cfg tie_board = some Direction.down :=
  c1_tie_breaking_last tie_cfg tie_board Direction.down 0 (by decide!) (by decide!) (by decide!)

/-- C2: `next_best_move` returns `None` exactly when no direction is legal —
where a direction is legal precisely when moving the board in it changes the
board — and any direction it does return is legal (its move changes the
board). -/
theorem c2_none_iff_no_legal_move (cfg : Solver) (b : Board) :
    (next_best_move cfg b = none ↔ ∀ d : Direction, b.move_to d = b) ∧
    (∀ d : Direction, next_best_move cfg b = some d → b.move_to d ≠ b) := by
  constructor
  · rw [next_best_move_eq, Option.map_eq_none', rust_max_by_none_iff]
    exact top_candidates_nil_iff cfg b
  · intro d hd
    rw [next_best_move_eq] at hd
    cases h : rust_max_by (top_candidates cfg b) with
    | none => rw [h] at hd; cases hd
    | some p =>
        rw [h] at hd
        simp only [Option.map_some', Option.some.injEq] at hd
        exact hd ▸ top_candidates_legal cfg b p (rust_max_by_mem h)

/-- Witness for `c2_none_iff_no_legal_move`: instantiating both conjuncts at
concrete boards — a terminal board (all sixteen tiles distinct) maps to
`none`, and the returned move on `tie_board` is indeed legal. -/
theorem c2_none_iff_no_legal_move_witness :
    next_best_move tie_cfg ⟨0x123456789ABCDEF5⟩ = none ∧
    tie_board.move_to Direction.down ≠ tie_board :=
  ⟨(c2_none_iff_no_legal_move tie_cfg ⟨0x123456789ABCDEF5⟩).1.mpr (by decide),
   (c2_none_iff_no_legal_move tie_cfg tie_board).2 Direction.down (by decide!)⟩

/-- C8 (counterexample): on `cache_board` at depth 3 the memoized search of
`solver.rs` does *not* coincide with the spec's depth- and probability-gated
policy.  During the search, the chance value of one board is first computed
at remaining depth 2 under branch probability 1/4 (< `min_branch_proba`, so
it is a cutoff static evaluation) and stored; the same board is later
requested at remaining depth 1 under branch probability 9/16 (≥
`min_branch_proba`).  The code reuses the entry because `2 ≥ 1`, although it
was computed at a far weaker branch probability; the gated policy recomputes
it, and the two searches return different values (425/8 versus 125/8). -/
theorem c8_cache_counterexample :
    (eval_average cache_cfg 3 [] cache_board 1).1 ≠
      (eval_average_gated cache_cfg 3 [] cache_board 1).1 := by
  decide!

/-- Helper: the chance-node expansion records its average at `store_depth`. -/
lemma eval_average_expand_get (cfg : Solver)
    (f : TTable → Board → ℚ → Option (Direction × ℚ) × TTable)
    (sd : ℕ) (t : TTable) (b : Board) (p : ℚ) :
    table_get (eval_average_expand cfg f sd t b p).2 b =
      some ((eval_average_expand cfg f sd t b p).1, sd) := by
  simp [eval_average_expand, table_get, table_insert]

/-- C8 (amended): the transposition table of `solver.rs` is gated on depth
only.  A memoized value is returned if and only if the entry's recorded
remaining depth is at least the requested one — the branch probability is
neither recorded nor compared, so an entry computed under a weaker (smaller)
branch probability may be reused for a stricter request.  A depth-stale
entry is recomputed and replaced: after the call the table maps the board to
the freshly computed value at the requested depth. -/
theorem c8_depth_only_cache_policy (cfg : Solver) (t : TTable) (b : Board) (d : ℕ) (p v : ℚ)
    (d0 : ℕ) (h : table_get t b = some (v, d0)) :
    (d ≤ d0 → eval_average cfg d t b p = (v, t)) ∧
    (d0 < d → table_get (eval_average cfg d t b p).2 b =
      some ((eval_average cfg d t b p).1, d)) := by
  cases d with
  | zero =>
      refine ⟨fun _ => by simp [eval_average, h], fun h0 => absurd h0 (by omega)⟩
  | succ k =>
      constructor
      · intro hle
        simp [eval_average, h, hle]
      · intro hlt
        have hnle : ¬ (k + 1 ≤ d0) := by omega
        simp only [eval_average, h, if_neg hnle]
        split
        · simp [table_get, table_insert]
        · exact eval_average_expand_get ..

/-- Witness for `c8_depth_only_cache_policy`: a preloaded entry at depth 5 is
reused verbatim for a depth-3 request (whatever its original branch
probability was), and a depth-1 entry is recomputed and replaced at depth 3. -/
theorem c8_depth_only_cache_policy_witness :
    eval_average cache_cfg 3 [(cache_board, 7, 5)] cache_board 1 =
      (7, [(cache_board, 7, 5)]) ∧
    table_get (eval_average cache_cfg 3 [(cache_board, 7, 1)] cache_board 1).2 cache_board =
      some ((eval_average cache_cfg 3 [(cache_board, 7, 1)] cache_board 1).1, 3) :=
  ⟨(c8_depth_only_cache_policy cache_cfg [(cache_board, 7, 5)] cache_board 3 1 7 5
      (by decide!)).1 (by omega),
   (c8_depth_only_cache_policy cache_cfg [(cache_board, 7, 1)] cache_board 3 1 7 1
      (by decide!)).2 (by omega)⟩

/-!
## Claim theorems: rows, construction, evaluators
-/

/-- Packs a row of four tile *values* into its 16-bit nibble encoding, the
row-scale analogue of `From<Vec<u16>>`; used only to state the concrete
merge examples in terms of tile values. -/
def row_from_values (vs : List ℕ) : Option ℕ :=
  vs.foldl (fun acc v => acc.bind fun r => (get_exponent v).map fun e => ((r <<< 4) % 65536) ||| e)
    (some 0)

/-- C3: sliding `[2,2,2,2]` left gives `[4,4,0,0]` and right gives
`[0,0,4,4]`; sliding `[2,2,2,0]` left gives `[4,2,0,0]`, not `[4,4,0,0]` —
a tile merges at most once per move and a freshly merged tile does not merge
again. -/
theorem c3_row_merge_semantics :
    (row_from_values [2, 2, 2, 2]).map get_left_move = row_from_values [4, 4, 0, 0] ∧
    (row_from_values [2, 2, 2, 2]).map get_right_move = row_from_values [0, 0, 4, 4] ∧
    (row_from_values [2, 2, 2, 0]).map get_left_move = row_from_values [4, 2, 0, 0] ∧
    (row_from_values [2, 2, 2, 0]).map get_left_move ≠ row_from_values [4, 4, 0, 0] := by
  decide

lemma from_vec_fold_none (v : List ℕ) : v.foldl from_vec_step none = none := by
  induction v with
  | nil => rfl
  | cons x v ih => simpa [from_vec_step] using ih

lemma from_vec_fold_some (v : List ℕ) :
    ∀ s : ℕ, (∀ x ∈ v, (get_exponent x).isSome) →
      ∃ r : ℕ, v.foldl from_vec_step (some s) = some r := by
  induction v with
  | nil => exact fun s _ => ⟨s, rfl⟩
  | cons x v ih =>
      intro s hv
      rcases Option.isSome_iff_exists.1 (hv x (List.mem_cons_self _ _)) with ⟨e, he⟩
      simpa [from_vec_step, he] using
        ih _ fun y hy => hv y (List.mem_cons_of_mem _ hy)

/-- C5 (counterexample): `From<Vec<u16>>` performs no count validation — a
15-element (or even empty) sequence is accepted and converted to a board
rather than rejected with an error identifying the invalid count. -/
theorem c5_wrong_count_accepted :
    board_from_vec (List.replicate 15 2) = some ⟨0x111111111111111⟩ ∧
    (List.replicate 15 2).length ≠ 16 ∧
    board_from_vec [] = some ⟨0⟩ := by
  decide

/-- C5 (amended): board construction from a sequence of tile values checks
only the individual values, not the count: any sequence whose entries are
each 0 or a power of two not exceeding 32768 is accepted (shorter sequences
leave the leading cells empty, longer ones silently shift the earliest
values out of the 64-bit state), and a sequence containing any other value
makes `get_exponent` panic (modelled `none`) instead of returning an error. -/
theorem c5_construction_behaviour (v : List ℕ) :
    ((∀ x ∈ v, (get_exponent x).isSome) → ∃ b : Board, board_from_vec v = some b) ∧
    ((∃ x ∈ v, get_exponent x = none) → board_from_vec v = none) := by
  constructor
  · intro hv
    rcases from_vec_fold_some v 0 hv with ⟨r, hr⟩
    exact ⟨⟨r⟩, by simp [board_from_vec, hr]⟩
  · rintro ⟨x, hx, hnone⟩
    suffices h : v.foldl from_vec_step (some 0) = none by simp [board_from_vec, h]
    rcases List.append_of_mem hx with ⟨v₁, v₂, rfl⟩
    have h1 : (v₁ ++ x :: v₂).foldl from_vec_step (some 0) =
        v₂.foldl from_vec_step (from_vec_step (v₁.foldl from_vec_step (some 0)) x) := by
      simp [List.foldl_append]
    rw [h1]
    have h2 : from_vec_step (v₁.foldl from_vec_step (some 0)) x = none := by
      cases v₁.foldl from_vec_step (some 0) <;> simp [from_vec_step, hnone]
    rw [h2, from_vec_fold_none]

/-- Witness for `c5_construction_behaviour` at concrete sequences. -/
theorem c5_construction_behaviour_witness :
    (∃ b : Board, board_from_vec [2, 4, 8] = some b) ∧ board_from_vec [2, 3, 8] = none :=
  ⟨(c5_construction_behaviour [2, 4, 8]).1 (by decide),
   (c5_construction_behaviour [2, 3, 8]).2 ⟨3, by decide, by decide⟩⟩

lemma Board.get_row_lt (b : Board) (i : ℕ) : b.get_row i < 65536 := by
  have key : ∀ (m s : ℕ), m >>> s < 65536 → (b.state &&& m) >>> s < 65536 := by
    intro m s hm
    calc (b.state &&& m) >>> s = (b.state &&& m) / 2 ^ s := Nat.shiftRight_eq_div_pow _ _
      _ ≤ m / 2 ^ s := Nat.div_le_div_right Nat.and_le_right
      _ < 65536 := by rwa [Nat.shiftRight_eq_div_pow] at hm
  have h0 := key 0xFFFF000000000000 48 (by decide)
  have h1 := key 0x0000FFFF00000000 32 (by decide)
  have h2 := key 0x00000000FFFF0000 16 (by decide)
  have h3 : b.state &&& 0x000000000000FFFF < 65536 :=
    Nat.lt_succ_of_le (le_trans Nat.and_le_right (by norm_num))
  rcases i with _ | _ | _ | _ | i <;>
    simp_all [Board.get_row, Board.rows, List.getD]

lemma Board.get_column_lt (b : Board) (i : ℕ) : b.get_column i < 65536 :=
  Board.get_row_lt b.transpose i

lemma range_map_getD (f : ℕ → ℚ) (n k : ℕ) (h : k < n) :
    ((List.range n).map f).getD k 0 = f k := by
  simp [List.getD, List.getElem?_map, List.getElem?_range h]

/-- C6: the precomputed wrapper built from a row/column evaluator `E` scores
every board exactly as `E` does (the scores are modelled as exact rationals,
so "within floating-point tolerance" becomes equality), and its game-over
penalty is the copied one of `E`. -/
theorem c6_precomputed_evaluator_equiv (E : RowColumnEvaluator) (b : Board) :
    (PrecomputedBoardEvaluator.new E).evaluate b = E.evaluate b ∧
    (PrecomputedBoardEvaluator.new E).gameover_penalty = E.gameover_penalty := by
  refine ⟨?_, rfl⟩
  simp only [PrecomputedBoardEvaluator.evaluate, PrecomputedBoardEvaluator.new,
    RowColumnEvaluator.evaluate]
  refine congrArg List.sum (List.map_congr_left ?_)
  intro i _
  rw [range_map_getD _ _ _ (Board.get_row_lt b i), range_map_getD _ _ _ (Board.get_column_lt b i)]

/-!
## Claim theorems: cell update (frame property)
-/

lemma get_exponent_lt {v e : ℕ} (h : get_exponent v = some e) : e < 16 := by
  unfold get_exponent at h
  split at h <;> simp_all <;> omega

/-- Bit-level description of `set_value_by_exponent` for a 4-bit exponent:
inside the target nibble the bits come from the exponent, outside they are
the original state's bits. -/
lemma set_value_by_exponent_testBit (s idx e : ℕ) (hidx : idx < 16) (he : e < 16)
    (k : ℕ) (hk : k < 64) :
    ((Board.mk s).set_value_by_exponent idx e).state.testBit k =
      if (15 - idx) * 4 ≤ k ∧ k < (15 - idx) * 4 + 4 then e.testBit (k - (15 - idx) * 4)
      else s.testBit k := by
  simp only [Board.set_value_by_exponent]
  set m := 15 - idx with hm
  have hupd : (e <<< (m * 4)) % 2 ^ 64 = e <<< (m * 4) := by
    apply Nat.mod_eq_of_lt
    rw [Nat.shiftLeft_eq]
    calc e * 2 ^ (m * 4) ≤ 15 * 2 ^ 60 :=
          Nat.mul_le_mul (by omega) (Nat.pow_le_pow_right (by norm_num) (by omega))
      _ < 2 ^ 64 := by norm_num
  rw [hupd]
  have h64 : (0xFFFFFFFFFFFFFFFF : ℕ) = 2 ^ 64 - 1 := by norm_num
  have h15 : (15 : ℕ) = 2 ^ 4 - 1 := by norm_num
  rw [Nat.testBit_or, Nat.testBit_and, Nat.testBit_xor, h64, h15,
    Nat.testBit_two_pow_sub_one, Nat.testBit_shiftLeft, Nat.testBit_shiftLeft,
    Nat.testBit_two_pow_sub_one]
  by_cases h1 : m * 4 ≤ k
  · by_cases h2 : k < m * 4 + 4
    · have h3 : k - m * 4 < 4 := by omega
      simp [h1, h2, h3, hk]
    · have h3 : ¬ (k - m * 4 < 4) := by omega
      have h4 : e.testBit (k - m * 4) = false :=
        Nat.testBit_lt_two_pow (lt_of_lt_of_le he (by
          calc (16 : ℕ) = 2 ^ 4 := by norm_num
            _ ≤ 2 ^ (k - m * 4) := Nat.pow_le_pow_right (by norm_num) (by omega)))
      simp [h1, h2, h3, h4, hk]
  · have h2 : ¬ (m * 4 ≤ k ∧ k < m * 4 + 4) := by omega
    simp [h1, h2, hk]

/-- C9 (counterexample): with an exponent argument of 16 (not representable
in a nibble) the update mask spills into the neighbouring cell:
`set_value_by_exponent 15 16` on the empty board changes cell 14 —
"for every exponent argument" fails. -/
theorem c9_exponent_overflow_counterexample :
    ((Board.mk 0).set_value_by_exponent 15 16).get_exponent_value 14 ≠
      (Board.mk 0).get_exponent_value 14 ∧
    ((Board.mk 0).set_value_by_exponent 15 16).get_exponent_value 15 ≠ 16 := by
  decide

/-- C9 (amended): for every board, tile index `< 16` and exponent `< 16`
(the nibble range; `get_exponent` only ever produces such exponents),
`set_value_by_exponent` returns a board whose cell at that index holds the
given exponent while each of the other 15 cells holds exactly the exponent
it held before; `set_value` on a valid tile value goes through
`set_value_by_exponent` with such an exponent. -/
theorem c9_set_value_frame (b : Board) (idx e : ℕ) (hidx : idx < 16) (he : e < 16) :
    ((b.set_value_by_exponent idx e).get_exponent_value idx = e) ∧
    (∀ j, j < 16 → j ≠ idx →
      (b.set_value_by_exponent idx e).get_exponent_value j = b.get_exponent_value j) ∧
    (∀ tile_value exponent, get_exponent tile_value = some exponent →
      b.set_value idx tile_value = some (b.set_value_by_exponent idx exponent) ∧ exponent < 16) := by
  obtain ⟨s⟩ := b
  have hbit : ∀ (x : ℕ) (n i : ℕ),
      ((x >>> n) &&& 15).testBit i = (x.testBit (n + i) && decide (i < 4)) := by
    intro x n i
    have h15 : (15 : ℕ) = 2 ^ 4 - 1 := by norm_num
    rw [Nat.testBit_and, Nat.testBit_shiftRight, h15, Nat.testBit_two_pow_sub_one]
  refine ⟨?_, ?_, ?_⟩
  · apply Nat.eq_of_testBit_eq
    intro i
    rw [Board.get_exponent_value, hbit]
    by_cases hi : i < 4
    · rw [set_value_by_exponent_testBit s idx e hidx he _ (by omega)]
      have hin : (15 - idx) * 4 ≤ 4 * (15 - idx) + i ∧
          4 * (15 - idx) + i < (15 - idx) * 4 + 4 := by omega
      rw [if_pos hin]
      have : 4 * (15 - idx) + i - (15 - idx) * 4 = i := by omega
      simp [this, hi]
    · have h1 : e.testBit i = false :=
        Nat.testBit_lt_two_pow (lt_of_lt_of_le he (by
          calc (16 : ℕ) = 2 ^ 4 := by norm_num
            _ ≤ 2 ^ i := Nat.pow_le_pow_right (by norm_num) (by omega)))
      simp [hi, h1]
  · intro j hj hne
    apply Nat.eq_of_testBit_eq
    intro i
    rw [Board.get_exponent_value, Board.get_exponent_value, hbit, hbit]
    by_cases hi : i < 4
    · rw [set_value_by_exponent_testBit s idx e hidx he _ (by omega)]
      have hout : ¬ ((15 - idx) * 4 ≤ 4 * (15 - j) + i ∧
          4 * (15 - j) + i < (15 - idx) * 4 + 4) := by omega
      rw [if_neg hout]
    · simp [hi]
  · intro tile_value exponent h
    exact ⟨by simp [Board.set_value, h], get_exponent_lt h⟩

/-- Witness for `c9_set_value_frame` at a concrete board, index and exponent. -/
theorem c9_set_value_frame_witness :
    (((Board.mk 0x123456789ABCDEF0).set_value_by_exponent 5 9).get_exponent_value 5 = 9) ∧
    ((Board.mk 0x123456789ABCDEF0).set_value_by_exponent 5 9).get_exponent_value 4 =
      (Board.mk 0x123456789ABCDEF0).get_exponent_value 4 := by
  have h := c9_set_value_frame (Board.mk 0x123456789ABCDEF0) 5 9 (by decide) (by decide)
  exact ⟨h.1, h.2.1 4 (by decide) (by decide)⟩

/-!
## Claim theorems: transpose involution
-/

/-- The bit permutation performed by `Board::transpose`: bit `i` of the
result is bit `tau i` of the input — nibble `n` (tile index `15 - n`) is
exchanged with the nibble of the transposed tile index. -/
def tau (i : ℕ) : ℕ :=
  let n := i / 4
  let idx := 15 - n
  let idx2 := 4 * (idx % 4) + idx / 4
  4 * (15 - idx2) + i % 4

lemma tau_tau : ∀ i : Fin 64, tau (tau i) = i := by decide

lemma tau_lt : ∀ i : Fin 64, tau i < 64 := by decide

set_option maxHeartbeats 3200000 in
/-- `transpose` is the pure bit permutation `tau` on the low 64 bits. -/
lemma transpose_testBit (x : ℕ) : ∀ i : ℕ, i < 64 →
    (Board.mk x).transpose.state.testBit i = x.testBit (tau i) := by
  intro i hi
  interval_cases i <;>
    (simp only [Board.transpose]
     simp only [Nat.testBit_or, Nat.testBit_and, Nat.testBit_shiftRight, Nat.testBit_shiftLeft]
     norm_num [Nat.testBit_to_div_mod, tau])

/-- The transpose of any board state fits in 64 bits. -/
lemma transpose_state_lt (x : ℕ) : (Board.mk x).transpose.state < 2 ^ 64 := by
  simp only [Board.transpose]
  apply Nat.or_lt_two_pow
  apply Nat.or_lt_two_pow
  · exact lt_of_le_of_lt Nat.and_le_right (by norm_num)
  · calc _ >>> 24 = _ / 2 ^ 24 := Nat.shiftRight_eq_div_pow _ _
      _ ≤ (0x00FF00FF00000000 : ℕ) / 2 ^ 24 := Nat.div_le_div_right Nat.and_le_right
      _ < 2 ^ 64 := by norm_num
  · rw [Nat.shiftLeft_eq]
    calc _ ≤ 0x00000000FF00FF00 * 2 ^ 24 := Nat.mul_le_mul_right _ Nat.and_le_right
      _ < 2 ^ 64 := by norm_num

/-- C7: `transpose` is an involution — for every board whose state is a
64-bit value, `transpose (transpose b) = b`: the transpose is a pure bit
permutation with no data loss. -/
theorem c7_transpose_involution (b : Board) (h : b.state < 2 ^ 64) :
    b.transpose.transpose = b := by
  obtain ⟨x⟩ := b
  have hx : (Board.mk x).transpose = Board.mk (Board.mk x).transpose.state := rfl
  apply Board.ext
  apply Nat.eq_of_testBit_eq
  intro i
  by_cases hi : i < 64
  · rw [hx, transpose_testBit _ i hi, transpose_testBit x (tau i) (tau_lt ⟨i, hi⟩),
      tau_tau ⟨i, hi⟩]
  · have h1 : (Board.mk (Board.mk x).transpose.state).transpose.state.testBit i = false :=
      Nat.testBit_lt_two_pow (lt_of_lt_of_le (transpose_state_lt _)
        (Nat.pow_le_pow_right (by norm_num) (by omega)))
    have h2 : x.testBit i = false :=
      Nat.testBit_lt_two_pow (lt_of_lt_of_le h (Nat.pow_le_pow_right (by norm_num) (by omega)))
    rw [hx, h1, h2]

/-- Witness for `c7_transpose_involution` at a concrete board. -/
theorem c7_transpose_involution_witness :
    (Board.mk 0x123456789ABCDEF0).transpose.transpose = Board.mk 0x123456789ABCDEF0 :=
  c7_transpose_involution (Board.mk 0x123456789ABCDEF0) (by norm_num)

/-!
## Claim theorems: value conservation of row moves

`get_left_move` / `get_right_move` are imperative four-step loops; the
conservation proof runs each loop against an invariant relating the partial
result to the original row.
-/

/-- Nibble `j` (0 = leftmost) of a 16-bit row. -/
@[reducible]
def row_nibble (row j : ℕ) : ℕ := (row >>> (4 * (3 - j))) &&& 15

/-- The value of a tile with exponent `e`: 0 for an empty cell, `2^e`
otherwise. -/
def tile_value (e : ℕ) : ℕ := if e = 0 then 0 else 2 ^ e

/-- The total tile value of the four cells of a row. -/
def row_value_sum (row : ℕ) : ℕ :=
  tile_value (row_nibble row 0) + tile_value (row_nibble row 1) +
    tile_value (row_nibble row 2) + tile_value (row_nibble row 3)

/-- One step of the merge-tracking scan mirroring the branch structure of the
row-move loops: the first component is the loop's `prev_value`, the second
records whether a merge of two exponent-15 tiles has been performed. -/
def merge_scan_step (row : ℕ) (s : ℕ × Bool) (i : ℕ) : ℕ × Bool :=
  let value := row_nibble row i
  if value = 0 then s
  else if value = s.1 then (255, s.2 || (value == 15))
  else (value, s.2)

/-- Whether `get_left_move` merges two exponent-15 (32768) tiles on `row`:
the scan replays exactly the loop's `prev_value` bookkeeping. -/
def left_merge_scan (row : ℕ) : Bool :=
  (List.foldl (merge_scan_step row) (255, false) [0, 1, 2, 3]).2

/-- Whether `get_right_move` merges two exponent-15 tiles on `row`. -/
def right_merge_scan (row : ℕ) : Bool :=
  (List.foldl (merge_scan_step row) (255, false) [3, 2, 1, 0]).2

lemma row_nibble_lt (row j : ℕ) : row_nibble row j < 16 :=
  lt_of_le_of_lt Nat.and_le_right (by norm_num)

/-- The loop's value extraction agrees with `row_nibble`. -/
lemma extract_nibble_eq (r s : ℕ) : (r &&& (15 <<< s)) >>> s = (r >>> s) &&& 15 := by
  apply Nat.eq_of_testBit_eq
  intro t
  have h15 : (15 : ℕ) = 2 ^ 4 - 1 := by norm_num
  rw [Nat.testBit_shiftRight, Nat.testBit_and, Nat.testBit_and, Nat.testBit_shiftRight,
    Nat.testBit_shiftLeft, h15, Nat.testBit_two_pow_sub_one, Nat.testBit_two_pow_sub_one]
  have hle : s ≤ s + t := by omega
  have hst : s + t - s = t := by omega
  simp [hle, hst]

/-- Nibble description of `set_value_in_row`: the written nibble holds `v`,
every other nibble is unchanged. -/
lemma row_nibble_set (r idx v j : ℕ) (hidx : idx ≤ 3) (hj : j ≤ 3) (hv : v < 16) :
    row_nibble (set_value_in_row r idx v) j = if j = idx then v else row_nibble r j := by
  have hupd : (v <<< (4 * (3 - idx))) % 65536 = v <<< (4 * (3 - idx)) := by
    apply Nat.mod_eq_of_lt
    rw [Nat.shiftLeft_eq]
    calc v * 2 ^ (4 * (3 - idx)) ≤ 15 * 2 ^ 12 :=
          Nat.mul_le_mul (by omega) (Nat.pow_le_pow_right (by norm_num) (by omega))
      _ < 65536 := by norm_num
  have hbit : ∀ (x n t : ℕ), ((x >>> n) &&& 15).testBit t = (x.testBit (n + t) && decide (t < 4)) := by
    intro x n t
    have h15 : (15 : ℕ) = 2 ^ 4 - 1 := by norm_num
    rw [Nat.testBit_and, Nat.testBit_shiftRight, h15, Nat.testBit_two_pow_sub_one]
  by_cases heq : j = idx
  · subst heq
    rw [if_pos rfl]
    apply Nat.eq_of_testBit_eq
    intro t
    rw [row_nibble, hbit]
    by_cases ht : t < 4
    · simp only [set_value_in_row, hupd, Nat.testBit_or, Nat.testBit_and, Nat.testBit_xor,
        Nat.testBit_shiftLeft]
      have h65 : (65535 : ℕ) = 2 ^ 16 - 1 := by norm_num
      have h15 : (15 : ℕ) = 2 ^ 4 - 1 := by norm_num
      rw [h65, h15, Nat.testBit_two_pow_sub_one, Nat.testBit_two_pow_sub_one]
      have e1 : 4 * (3 - j) ≤ 4 * (3 - j) + t := by omega
      have e2 : 4 * (3 - j) + t - 4 * (3 - j) = t := by omega
      have e3 : 4 * (3 - j) + t < 16 := by omega
      simp [e1, e2, e3, ht]
    · have h1 : v.testBit t = false :=
        Nat.testBit_lt_two_pow (lt_of_lt_of_le hv (by
          calc (16 : ℕ) = 2 ^ 4 := by norm_num
            _ ≤ 2 ^ t := Nat.pow_le_pow_right (by norm_num) (by omega)))
      simp [ht, h1]
  · rw [if_neg heq]
    apply Nat.eq_of_testBit_eq
    intro t
    rw [row_nibble, row_nibble, hbit, hbit]
    by_cases ht : t < 4
    · simp only [set_value_in_row, hupd, Nat.testBit_or, Nat.testBit_and, Nat.testBit_xor,
        Nat.testBit_shiftLeft]
      have h65 : (65535 : ℕ) = 2 ^ 16 - 1 := by norm_num
      have h15 : (15 : ℕ) = 2 ^ 4 - 1 := by norm_num
      rw [h65, h15, Nat.testBit_two_pow_sub_one, Nat.testBit_two_pow_sub_one]
      have e3 : 4 * (3 - j) + t < 16 := by omega
      have e4 : ¬ (4 * (3 - idx) ≤ 4 * (3 - j) + t ∧ 4 * (3 - j) + t - 4 * (3 - idx) < 4) := by
        omega
      by_cases e5 : 4 * (3 - idx) ≤ 4 * (3 - j) + t
      · have e6 : ¬ (4 * (3 - j) + t - 4 * (3 - idx) < 4) := by omega
        have e7 : v.testBit (4 * (3 - j) + t - 4 * (3 - idx)) = false :=
          Nat.testBit_lt_two_pow (lt_of_lt_of_le hv (by
            calc (16 : ℕ) = 2 ^ 4 := by norm_num
              _ ≤ 2 ^ (4 * (3 - j) + t - 4 * (3 - idx)) :=
                  Nat.pow_le_pow_right (by norm_num) (by omega)))
        simp [e3, e5, e6, e7, ht]
      · simp [e3, e5, ht]
    · simp [ht]

/-- The simple if-free reformulation of `if j = idx` used in sums. -/
lemma row_value_sum_set (r idx v : ℕ) (hidx : idx ≤ 3) (hv : v < 16) :
    row_value_sum (set_value_in_row r idx v) + tile_value (row_nibble r idx) =
      row_value_sum r + tile_value v := by
  interval_cases idx <;>
    · simp only [row_value_sum]
      rw [row_nibble_set r _ v 0 (by omega) (by omega) hv,
        row_nibble_set r _ v 1 (by omega) (by omega) hv,
        row_nibble_set r _ v 2 (by omega) (by omega) hv,
        row_nibble_set r _ v 3 (by omega) (by omega) hv]
      norm_num
      ring

/-- The loop invariant of the `get_left_move` scan before processing
position `i`: positions `< new_value_idx` hold the compacted prefix,
positions in `[new_value_idx, i)` have been cleared, positions `≥ i` are
untouched, `prev_value` (unless 255) is the last compacted tile, and the
total tile value of the partial result equals the original row's. -/
structure LeftInv (row i : ℕ) (s : MoveScan) : Prop where
  vi : s.value_idx = i
  nle : s.new_value_idx ≤ i
  not_moved : s.moved = false → s.new_value_idx = i ∧ s.result = row
  moved_lt : s.moved = true → s.new_value_idx < i
  gap : ∀ j, s.new_value_idx ≤ j → j < i → row_nibble s.result j = 0
  frame : ∀ j, i ≤ j → j ≤ 3 → row_nibble s.result j = row_nibble row j
  link : s.prev_value = 255 ∨
    (1 ≤ s.new_value_idx ∧ s.prev_value = row_nibble s.result (s.new_value_idx - 1) ∧
      s.prev_value ≠ 0 ∧ s.prev_value < 16)
  sum_eq : row_value_sum s.result = row_value_sum row

lemma merge_scan_flag_mono {row : ℕ} {p : ℕ × Bool} {i : ℕ}
    (h : (merge_scan_step row p i).2 = false) : p.2 = false := by
  simp only [merge_scan_step] at h
  split_ifs at h with h1 h2
  · exact h
  · simpa using (Bool.or_eq_false_iff.1 h).1
  · exact h

lemma left_move_inv_step (row i : ℕ) (s : MoveScan) (p : ℕ × Bool)
    (hi : i ≤ 3) (hinv : LeftInv row i s) (hprev : s.prev_value = p.1)
    (hflag : (merge_scan_step row p i).2 = false) :
    LeftInv row (i + 1) (left_move_step row s i) ∧
      (left_move_step row s i).prev_value = (merge_scan_step row p i).1 := by
  obtain ⟨hvi, hnle, hnm, hml, hgap, hframe, hlink, hsum⟩ := hinv
  have hvlt : row_nibble row i < 16 := row_nibble_lt row i
  simp only [merge_scan_step, left_move_step, extract_nibble_eq] at hflag ⊢
  rw [show row >>> (4 * (3 - i)) &&& 15 = row_nibble row i from rfl]
  rw [← hprev] at hflag ⊢
  split_ifs at hflag ⊢ with h0 hm hmv
  · -- value = 0
    refine ⟨⟨?_, ?_, ?_, ?_, ?_, ?_, ?_, ?_⟩, ?_⟩ <;> dsimp only
    · omega
    · omega
    · intro h; exact absurd h (by simp)
    · intro _; omega
    · intro j hj1 hj2
      rcases Nat.lt_succ_iff_lt_or_eq.1 hj2 with h | rfl
      · exact hgap j hj1 h
      · rw [hframe j le_rfl hi]; exact h0
    · intro j hj1 hj2
      exact hframe j (by omega) hj2
    · exact hlink
    · exact hsum
    · exact hprev
  · -- merge: value ≠ 0, value = prev_value
    rcases hlink with h255 | ⟨hn1, hpr, hpnz, hplt⟩
    · rw [h255] at hm; omega
    have hv15 : row_nibble row i ≠ 15 := by
      intro h
      dsimp only at hflag
      rw [Bool.or_eq_false_iff] at hflag
      simpa [h] using hflag.2
    have hv1lt : row_nibble row i + 1 < 16 := by omega
    refine ⟨⟨?_, ?_, ?_, ?_, ?_, ?_, ?_, ?_⟩, ?_⟩ <;> dsimp only
    · omega
    · omega
    · intro h; exact absurd h (by simp)
    · intro _; omega
    · intro j hj1 hj2
      rcases Nat.lt_succ_iff_lt_or_eq.1 hj2 with h | heq
      · rw [row_nibble_set _ _ _ _ (by omega) (by omega) (by omega),
          if_neg (by omega : ¬ j = s.value_idx),
          row_nibble_set _ _ _ _ (by omega) (by omega) hv1lt,
          if_neg (by omega : ¬ j = s.new_value_idx - 1)]
        exact hgap j hj1 h
      · rw [row_nibble_set _ _ _ _ (by omega) (by omega) (by omega),
          if_pos (show j = s.value_idx from by omega)]
    · intro j hj1 hj2
      rw [row_nibble_set _ _ _ _ (by omega) (by omega) (by omega),
        if_neg (by omega : ¬ j = s.value_idx),
        row_nibble_set _ _ _ _ (by omega) (by omega) hv1lt,
        if_neg (by omega : ¬ j = s.new_value_idx - 1)]
      exact hframe j (by omega) hj2
    · exact Or.inl rfl
    · have hri : row_nibble (set_value_in_row s.result (s.new_value_idx - 1)
          (row_nibble row i + 1)) s.value_idx = row_nibble row i := by
        rw [row_nibble_set _ _ _ _ (by omega) (by omega) hv1lt,
          if_neg (by omega : ¬ s.value_idx = s.new_value_idx - 1), hvi]
        exact hframe i le_rfl hi
      have eqB := row_value_sum_set (set_value_in_row s.result (s.new_value_idx - 1)
          (row_nibble row i + 1)) s.value_idx 0 (by omega) (by omega)
      have eqA := row_value_sum_set s.result (s.new_value_idx - 1)
          (row_nibble row i + 1) (by omega) hv1lt
      rw [hri] at eqB
      rw [← hpr, ← hm] at eqA
      have ht0 : tile_value 0 = 0 := rfl
      have ht1 : tile_value (row_nibble row i) = 2 ^ row_nibble row i := if_neg h0
      have ht2 : tile_value (row_nibble row i + 1) = 2 ^ (row_nibble row i + 1) :=
        if_neg (by omega)
      have ht3 : 2 ^ (row_nibble row i + 1) = 2 ^ row_nibble row i + 2 ^ row_nibble row i := by
        rw [pow_succ]; ring
      omega
  · -- shift: value ≠ 0, value ≠ prev_value, moved
    have hnvi : s.new_value_idx < i := hml hmv
    refine ⟨⟨?_, ?_, ?_, ?_, ?_, ?_, ?_, ?_⟩, ?_⟩ <;> dsimp only
    · omega
    · omega
    · intro h; rw [hmv] at h; exact absurd h (by simp)
    · intro _; omega
    · intro j hj1 hj2
      rcases Nat.lt_succ_iff_lt_or_eq.1 hj2 with h | heq
      · rw [row_nibble_set _ _ _ _ (by omega) (by omega) (by omega),
          if_neg (by omega : ¬ j = s.value_idx),
          row_nibble_set _ _ _ _ (by omega) (by omega) hvlt,
          if_neg (by omega : ¬ j = s.new_value_idx)]
        exact hgap j (by omega) h
      · rw [row_nibble_set _ _ _ _ (by omega) (by omega) (by omega),
          if_pos (show j = s.value_idx from by omega)]
    · intro j hj1 hj2
      rw [row_nibble_set _ _ _ _ (by omega) (by omega) (by omega),
        if_neg (by omega : ¬ j = s.value_idx),
        row_nibble_set _ _ _ _ (by omega) (by omega) hvlt,
        if_neg (by omega : ¬ j = s.new_value_idx)]
      exact hframe j (by omega) hj2
    · refine Or.inr ⟨by omega, ?_, h0, hvlt⟩
      rw [show s.new_value_idx + 1 - 1 = s.new_value_idx from by omega,
        row_nibble_set _ _ _ _ (by omega) (by omega) (by omega),
        if_neg (by omega : ¬ s.new_value_idx = s.value_idx),
        row_nibble_set _ _ _ _ (by omega) (by omega) hvlt,
        if_pos rfl]
    · have hri : row_nibble (set_value_in_row s.result s.new_value_idx
          (row_nibble row i)) s.value_idx = row_nibble row i := by
        rw [row_nibble_set _ _ _ _ (by omega) (by omega) hvlt,
          if_neg (by omega : ¬ s.value_idx = s.new_value_idx), hvi]
        exact hframe i le_rfl hi
      have hrn : row_nibble s.result s.new_value_idx = 0 := hgap _ le_rfl hnvi
      have eqA := row_value_sum_set s.result s.new_value_idx (row_nibble row i)
        (by omega) hvlt
      have eqB := row_value_sum_set (set_value_in_row s.result s.new_value_idx
          (row_nibble row i)) s.value_idx 0 (by omega) (by omega)
      rw [hrn] at eqA
      rw [hri] at eqB
      have ht0 : tile_value 0 = 0 := rfl
      omega
  · -- shift: value ≠ 0, value ≠ prev_value, not moved
    obtain ⟨hn, hr⟩ := hnm (by simpa using hmv)
    refine ⟨⟨?_, ?_, ?_, ?_, ?_, ?_, ?_, ?_⟩, ?_⟩ <;> dsimp only
    · omega
    · omega
    · intro _; exact ⟨by omega, hr⟩
    · intro h; exact absurd h hmv
    · intro j hj1 hj2
      exact absurd hj2 (by omega)
    · intro j hj1 hj2
      exact hframe j (by omega) hj2
    · refine Or.inr ⟨by omega, ?_, h0, hvlt⟩
      rw [show s.new_value_idx + 1 - 1 = s.new_value_idx from by omega, hn]
      exact (hframe i le_rfl hi).symm
    · exact hsum

/-- The loop invariant of the `get_right_move` scan with `k` positions
(indices `0..k-1`) still to process: positions `> new_value_idx` hold the
compacted suffix, positions in `[k, new_value_idx]` have been cleared (when
anything moved), positions `< k` are untouched, and the total tile value of
the partial result equals the original row's. -/
structure RightInv (row k : ℕ) (s : MoveScan) : Prop where
  vi : s.value_idx = k - 1
  nge : k - 1 ≤ s.new_value_idx
  n3 : s.new_value_idx ≤ 3
  not_moved : s.moved = false → s.new_value_idx = k - 1 ∧ s.result = row
  moved_ge : s.moved = true → k ≤ s.new_value_idx
  gap : s.moved = true → ∀ j, k ≤ j → j ≤ s.new_value_idx → row_nibble s.result j = 0
  frame : ∀ j, j < k → row_nibble s.result j = row_nibble row j
  link : 1 ≤ k → (s.prev_value = 255 ∨
    (s.new_value_idx + 1 ≤ 3 ∧ s.prev_value = row_nibble s.result (s.new_value_idx + 1) ∧
      s.prev_value ≠ 0 ∧ s.prev_value < 16))
  sum_eq : row_value_sum s.result = row_value_sum row

lemma right_move_inv_step (row i : ℕ) (s : MoveScan) (p : ℕ × Bool)
    (hi : i ≤ 3) (hinv : RightInv row (i + 1) s) (hprev : s.prev_value = p.1)
    (hflag : (merge_scan_step row p i).2 = false) :
    RightInv row i (right_move_step row s i) ∧
      (right_move_step row s i).prev_value = (merge_scan_step row p i).1 := by
  obtain ⟨hvi, hnge, hn3, hnm, hmg, hgap, hframe, hlink, hsum⟩ := hinv
  have hvlt : row_nibble row i < 16 := row_nibble_lt row i
  have hgap' : ∀ j, i + 1 ≤ j → j ≤ s.new_value_idx → row_nibble s.result j = 0 := by
    intro j hj1 hj2
    cases hmoved : s.moved with
    | true => exact hgap hmoved j hj1 hj2
    | false =>
      obtain ⟨hn, _⟩ := hnm hmoved
      exact absurd hj1 (by omega)
  simp only [merge_scan_step, right_move_step, extract_nibble_eq] at hflag ⊢
  rw [show row >>> (4 * (3 - i)) &&& 15 = row_nibble row i from rfl]
  rw [← hprev] at hflag ⊢
  split_ifs at hflag ⊢ with h0 hm hmv
  · -- value = 0
    refine ⟨⟨?_, ?_, ?_, ?_, ?_, ?_, ?_, ?_, ?_⟩, ?_⟩ <;> dsimp only
    · omega
    · omega
    · omega
    · intro h; exact absurd h (by simp)
    · intro _; omega
    · intro _ j hj1 hj2
      rcases Nat.lt_or_ge j (i + 1) with h | h
      · have hj : j = i := by omega
        rw [hj, hframe i (by omega)]; exact h0
      · exact hgap' j h hj2
    · intro j hj
      exact hframe j (by omega)
    · intro hk
      exact hlink (by omega)
    · exact hsum
    · exact hprev
  · -- merge: value ≠ 0, value = prev_value
    rcases hlink (by omega) with h255 | ⟨hn1, hpr, hpnz, hplt⟩
    · rw [h255] at hm; omega
    have hv15 : row_nibble row i ≠ 15 := by
      intro h
      dsimp only at hflag
      rw [Bool.or_eq_false_iff] at hflag
      simpa [h] using hflag.2
    have hv1lt : row_nibble row i + 1 < 16 := by omega
    have hne : ¬ s.new_value_idx + 1 = s.value_idx := by omega
    refine ⟨⟨?_, ?_, ?_, ?_, ?_, ?_, ?_, ?_, ?_⟩, ?_⟩ <;> dsimp only
    · omega
    · omega
    · omega
    · intro h; exact absurd h (by simp)
    · intro _; omega
    · intro _ j hj1 hj2
      rcases Nat.lt_or_ge j (i + 1) with h | h
      · have hj : j = i := by omega
        rw [row_nibble_set _ _ _ _ (by omega) (by omega) (by omega),
          if_pos (show j = s.value_idx from by omega)]
      · rw [row_nibble_set _ _ _ _ (by omega) (by omega) (by omega),
          if_neg (by omega : ¬ j = s.value_idx),
          row_nibble_set _ _ _ _ (by omega) (by omega) hv1lt,
          if_neg (by omega : ¬ j = s.new_value_idx + 1)]
        exact hgap' j h hj2
    · intro j hj
      rw [row_nibble_set _ _ _ _ (by omega) (by omega) (by omega),
        if_neg (by omega : ¬ j = s.value_idx),
        row_nibble_set _ _ _ _ (by omega) (by omega) hv1lt,
        if_neg (by omega : ¬ j = s.new_value_idx + 1)]
      exact hframe j (by omega)
    · intro _
      exact Or.inl rfl
    · have hri : row_nibble (set_value_in_row s.result (s.new_value_idx + 1)
          (row_nibble row i + 1)) s.value_idx = row_nibble row i := by
        rw [row_nibble_set _ _ _ _ (by omega) (by omega) hv1lt,
          if_neg (by omega : ¬ s.value_idx = s.new_value_idx + 1), hvi]
        exact hframe i (by omega)
      have eqB := row_value_sum_set (set_value_in_row s.result (s.new_value_idx + 1)
          (row_nibble row i + 1)) s.value_idx 0 (by omega) (by omega)
      have eqA := row_value_sum_set s.result (s.new_value_idx + 1)
          (row_nibble row i + 1) (by omega) hv1lt
      rw [hri] at eqB
      rw [← hpr, ← hm] at eqA
      have ht0 : tile_value 0 = 0 := rfl
      have ht1 : tile_value (row_nibble row i) = 2 ^ row_nibble row i := if_neg h0
      have ht2 : tile_value (row_nibble row i + 1) = 2 ^ (row_nibble row i + 1) :=
        if_neg (by omega)
      have ht3 : 2 ^ (row_nibble row i + 1) = 2 ^ row_nibble row i + 2 ^ row_nibble row i := by
        rw [pow_succ]; ring
      omega
  · -- shift: value ≠ 0, value ≠ prev_value, moved
    have hnvi : i + 1 ≤ s.new_value_idx := hmg hmv
    refine ⟨⟨?_, ?_, ?_, ?_, ?_, ?_, ?_, ?_, ?_⟩, ?_⟩ <;> dsimp only
    · omega
    · omega
    · omega
    · intro h; rw [hmv] at h; exact absurd h (by simp)
    · intro _; omega
    · intro _ j hj1 hj2
      rcases Nat.lt_or_ge j (i + 1) with h | h
      · have hj : j = i := by omega
        rw [row_nibble_set _ _ _ _ (by omega) (by omega) (by omega),
          if_pos (show j = s.value_idx from by omega)]
      · rw [row_nibble_set _ _ _ _ (by omega) (by omega) (by omega),
          if_neg (by omega : ¬ j = s.value_idx),
          row_nibble_set _ _ _ _ (by omega) (by omega) hvlt,
          if_neg (by omega : ¬ j = s.new_value_idx)]
        exact hgap' j h (by omega)
    · intro j hj
      rw [row_nibble_set _ _ _ _ (by omega) (by omega) (by omega),
        if_neg (by omega : ¬ j = s.value_idx),
        row_nibble_set _ _ _ _ (by omega) (by omega) hvlt,
        if_neg (by omega : ¬ j = s.new_value_idx)]
      exact hframe j (by omega)
    · intro _
      refine Or.inr ⟨by omega, ?_, h0, hvlt⟩
      rw [show s.new_value_idx - 1 + 1 = s.new_value_idx from by omega,
        row_nibble_set _ _ _ _ (by omega) (by omega) (by omega),
        if_neg (by omega : ¬ s.new_value_idx = s.value_idx),
        row_nibble_set _ _ _ _ (by omega) (by omega) hvlt,
        if_pos rfl]
    · have hri : row_nibble (set_value_in_row s.result s.new_value_idx
          (row_nibble row i)) s.value_idx = row_nibble row i := by
        rw [row_nibble_set _ _ _ _ (by omega) (by omega) hvlt,
          if_neg (by omega : ¬ s.value_idx = s.new_value_idx), hvi]
        exact hframe i (by omega)
      have hrn : row_nibble s.result s.new_value_idx = 0 := hgap' _ hnvi le_rfl
      have eqA := row_value_sum_set s.result s.new_value_idx (row_nibble row i)
        (by omega) hvlt
      have eqB := row_value_sum_set (set_value_in_row s.result s.new_value_idx
          (row_nibble row i)) s.value_idx 0 (by omega) (by omega)
      rw [hrn] at eqA
      rw [hri] at eqB
      have ht0 : tile_value 0 = 0 := rfl
      omega
  · -- shift: value ≠ 0, value ≠ prev_value, not moved
    obtain ⟨hn, hr⟩ := hnm (by simpa using hmv)
    refine ⟨⟨?_, ?_, ?_, ?_, ?_, ?_, ?_, ?_, ?_⟩, ?_⟩ <;> dsimp only
    · omega
    · omega
    · omega
    · intro _; exact ⟨by omega, hr⟩
    · intro h; exact absurd h hmv
    · intro h; exact absurd h hmv
    · intro j hj
      exact hframe j (by omega)
    · intro hk
      refine Or.inr ⟨by omega, ?_, h0, hvlt⟩
      rw [show s.new_value_idx - 1 + 1 = s.new_value_idx from by omega, hn,
        show i + 1 - 1 = i from by omega, hr]
    · exact hsum

lemma get_left_move_sum (row : ℕ) (h : left_merge_scan row = false) :
    row_value_sum (get_left_move row) = row_value_sum row := by
  have h4 : (merge_scan_step row (merge_scan_step row (merge_scan_step row
      (merge_scan_step row (255, false) 0) 1) 2) 3).2 = false := by
    simpa [left_merge_scan, List.foldl] using h
  have h3 := merge_scan_flag_mono h4
  have h2 := merge_scan_flag_mono h3
  have h1 := merge_scan_flag_mono h2
  have inv0 : LeftInv row 0
      { result := row, value_idx := 0, prev_value := 255, new_value_idx := 0, moved := false } :=
    ⟨rfl, le_rfl, fun _ => ⟨rfl, rfl⟩, fun hc => by simp at hc,
      fun j hj1 hj2 => absurd hj2 (by omega), fun j _ _ => rfl, Or.inl rfl, rfl⟩
  have step0 := left_move_inv_step row 0 _ (255, false) (by omega) inv0 rfl h1
  have step1 := left_move_inv_step row 1 _ _ (by omega) step0.1 step0.2 h2
  have step2 := left_move_inv_step row 2 _ _ (by omega) step1.1 step1.2 h3
  have step3 := left_move_inv_step row 3 _ _ (by omega) step2.1 step2.2 h4
  exact step3.1.sum_eq

lemma get_right_move_sum (row : ℕ) (h : right_merge_scan row = false) :
    row_value_sum (get_right_move row) = row_value_sum row := by
  have h4 : (merge_scan_step row (merge_scan_step row (merge_scan_step row
      (merge_scan_step row (255, false) 3) 2) 1) 0).2 = false := by
    simpa [right_merge_scan, List.foldl] using h
  have h3 := merge_scan_flag_mono h4
  have h2 := merge_scan_flag_mono h3
  have h1 := merge_scan_flag_mono h2
  have inv0 : RightInv row 4
      { result := row, value_idx := 3, prev_value := 255, new_value_idx := 3, moved := false } :=
    ⟨rfl, Nat.le_refl 3, Nat.le_refl 3, fun _ => ⟨rfl, rfl⟩, fun hc => by simp at hc,
      fun hc => by simp at hc, fun j _ => rfl, fun _ => Or.inl rfl, rfl⟩
  have step0 := right_move_inv_step row 3 _ (255, false) (by omega) inv0 rfl h1
  have step1 := right_move_inv_step row 2 _ _ (by omega) step0.1 step0.2 h2
  have step2 := right_move_inv_step row 1 _ _ (by omega) step1.1 step1.2 h3
  have step3 := right_move_inv_step row 0 _ _ (by omega) step2.1 step2.2 h4
  exact step3.1.sum_eq

/-- C10: sliding a row conserves the total tile value: for every 16-bit row
whose move does not merge two exponent-15 (32768) tiles, the sum over the
four cells of the tile value (0 for an empty nibble, `2^e` for exponent `e`)
of `get_left_move row`, and likewise of `get_right_move row`, equals that
sum for the input row — merges combine two equal tiles into one tile of
twice the value and never create or destroy value. -/
theorem c10_move_conserves_value (row : ℕ) (_hrow : row < 65536) :
    (left_merge_scan row = false →
      row_value_sum (get_left_move row) = row_value_sum row) ∧
    (right_merge_scan row = false →
      row_value_sum (get_right_move row) = row_value_sum row) :=
  ⟨get_left_move_sum row, get_right_move_sum row⟩

/-- Witness for C10 at the row `[2,4,8,8]` (nibbles `0x1233`): the left move
gives `[2,4,16,0]` and the right move `[0,2,4,16]`, both of total value 22. -/
theorem c10_move_conserves_value_witness :
    (0x1233 : ℕ) < 65536 ∧ left_merge_scan 0x1233 = false ∧
      right_merge_scan 0x1233 = false ∧
      row_value_sum (get_left_move 0x1233) = row_value_sum 0x1233 ∧
      row_value_sum (get_right_move 0x1233) = row_value_sum 0x1233 :=
  ⟨by decide, by decide, by decide,
    (c10_move_conserves_value 0x1233 (by decide)).1 (by decide),
    (c10_move_conserves_value 0x1233 (by decide)).2 (by decide)⟩

/-!
## C4: sequence round-trip

`From<Vec<u16>>` packs the 16 exponents into the 64-bit state from the top;
`From<Board> for Vec<u16>` reads them back.  The proof tracks the packed
accumulator as a base-16 positional value.
-/

lemma mul16_lor_eq_add (a e : ℕ) (he : e < 16) : 16 * a ||| e = 16 * a + e := by
  apply Nat.eq_of_testBit_eq
  intro j
  have hsh : (16 : ℕ) * a = a <<< 4 := by
    rw [Nat.shiftLeft_eq]; ring
  have hadd : (16 : ℕ) * a + e = 2 ^ 4 * a + e := by norm_num
  rw [Nat.testBit_lor, hadd, Nat.testBit_mul_pow_two_add a (show e < 2 ^ 4 from he) j,
    hsh, Nat.testBit_shiftLeft]
  rcases Nat.lt_or_ge j 4 with hj | hj
  · rw [if_pos hj]
    simp [Nat.not_le.2 hj]
  · rw [if_neg (by omega)]
    have he0 : Nat.testBit e j = false :=
      Nat.testBit_lt_two_pow (lt_of_lt_of_le he (by
        calc (16 : ℕ) = 2 ^ 4 := by norm_num
          _ ≤ 2 ^ j := Nat.pow_le_pow_right (by norm_num) hj))
    simp [hj, he0]

lemma pack_from (es : List ℕ) :
    ∀ a : ℕ, es.foldl (fun x e => 16 * x + e) a =
      a * 16 ^ es.length + es.foldl (fun x e => 16 * x + e) 0 := by
  induction es with
  | nil => intro a; simp
  | cons e es ih =>
    intro a
    simp only [List.foldl_cons, List.length_cons]
    rw [ih (16 * a + e), ih (16 * 0 + e), pow_succ]
    ring

lemma pack_lt (es : List ℕ) (h : ∀ e ∈ es, e < 16) :
    es.foldl (fun x e => 16 * x + e) 0 < 16 ^ es.length := by
  induction es with
  | nil => simp
  | cons e es ih =>
    simp only [List.foldl_cons, List.length_cons]
    rw [pack_from es (16 * 0 + e)]
    have he : e < 16 := h e (by simp)
    have hV : es.foldl (fun x e => 16 * x + e) 0 < 16 ^ es.length :=
      ih (fun x hx => h x (by simp [hx]))
    calc (16 * 0 + e) * 16 ^ es.length + es.foldl (fun x e => 16 * x + e) 0
        < (16 * 0 + e) * 16 ^ es.length + 16 ^ es.length := Nat.add_lt_add_left hV _
      _ = (16 * 0 + e + 1) * 16 ^ es.length := by ring
      _ ≤ 16 * 16 ^ es.length := Nat.mul_le_mul_right _ (by omega)
      _ = 16 ^ es.length * 16 := by ring

lemma from_vec_fold_packed {v es : List ℕ}
    (h : List.Forall₂ (fun x e => get_exponent x = some e) v es) :
    v.length ≤ 16 → ∀ a, a < 2 ^ (64 - 4 * v.length) →
      v.foldl from_vec_step (some a) =
        some (es.foldl (fun x e => 16 * x + e) a) := by
  induction h with
  | nil => intro _ a _; simp
  | @cons x e v' es' hxe htail ih =>
    intro hlen a ha
    simp only [List.length_cons] at ha hlen
    have he : e < 16 := get_exponent_lt hxe
    simp only [List.foldl_cons]
    have h1 : (a <<< 4) % 2 ^ 64 = 16 * a := by
      rw [Nat.shiftLeft_eq]
      have h2 : a * 2 ^ 4 < 2 ^ 64 := by
        calc a * 2 ^ 4 < 2 ^ (64 - 4 * (v'.length + 1)) * 2 ^ 4 :=
            mul_lt_mul_of_pos_right ha (by norm_num)
          _ = 2 ^ (64 - 4 * (v'.length + 1) + 4) := by rw [← pow_add]
          _ ≤ 2 ^ 64 := Nat.pow_le_pow_right (by norm_num) (by omega)
      rw [Nat.mod_eq_of_lt h2]; ring
    have hstep : from_vec_step (some a) x = some (16 * a + e) := by
      unfold from_vec_step
      rw [hxe]
      show some ((a <<< 4) % 2 ^ 64 ||| e) = some (16 * a + e)
      rw [h1, mul16_lor_eq_add a e he]
    rw [hstep]
    have hpow : (2 : ℕ) ^ (64 - 4 * v'.length) =
        2 ^ (64 - 4 * (v'.length + 1)) * 2 ^ 4 := by
      rw [← pow_add]
      congr 1
      omega
    refine ih (by omega) (16 * a + e) ?_
    have h16 : (2 : ℕ) ^ 4 = 16 := by norm_num
    rw [h16] at hpow
    omega

lemma exponents_loop_packed (es : List ℕ) :
    es.length ≤ 16 → (∀ e ∈ es, e < 16) →
      board_exponents_loop es.length
        ((es.foldl (fun x e => 16 * x + e) 0) * 2 ^ (64 - 4 * es.length)) = es := by
  induction es with
  | nil => intro _ _; rfl
  | cons e es ih =>
    intro hlen he
    simp only [List.length_cons] at hlen ⊢
    have helt : e < 16 := he e (by simp)
    have hVlt : es.foldl (fun x e => 16 * x + e) 0 < 16 ^ es.length :=
      pack_lt es (fun x hx => he x (by simp [hx]))
    have h16 : (16 : ℕ) ^ es.length = 2 ^ (4 * es.length) := by
      rw [show (16 : ℕ) = 2 ^ 4 from by norm_num, ← pow_mul]
    have hexp : 4 * es.length + (64 - 4 * (es.length + 1)) = 60 := by omega
    have hpack : (e :: es).foldl (fun x e => 16 * x + e) 0 =
        e * 16 ^ es.length + es.foldl (fun x e => 16 * x + e) 0 := by
      simp only [List.foldl_cons]
      rw [pack_from es (16 * 0 + e)]
      ring
    have hS : (e :: es).foldl (fun x e => 16 * x + e) 0 * 2 ^ (64 - 4 * (es.length + 1)) =
        2 ^ 60 * e + es.foldl (fun x e => 16 * x + e) 0 * 2 ^ (64 - 4 * (es.length + 1)) := by
      rw [hpack, Nat.add_mul]
      congr 1
      rw [h16, mul_assoc, ← pow_add, hexp]
      ring
    have hr_lt : es.foldl (fun x e => 16 * x + e) 0 * 2 ^ (64 - 4 * (es.length + 1)) <
        2 ^ 60 := by
      calc es.foldl (fun x e => 16 * x + e) 0 * 2 ^ (64 - 4 * (es.length + 1))
          < 16 ^ es.length * 2 ^ (64 - 4 * (es.length + 1)) :=
            mul_lt_mul_of_pos_right hVlt (pow_pos (by norm_num) _)
        _ = 2 ^ 60 := by rw [h16, ← pow_add, hexp]
    rw [hS]
    simp only [board_exponents_loop]
    congr 1
    · rw [Nat.shiftRight_eq_div_pow, Nat.mul_add_div (by positivity),
        Nat.div_eq_of_lt hr_lt]
      omega
    · have harith : (2 ^ 60 * e + es.foldl (fun x e => 16 * x + e) 0 *
          2 ^ (64 - 4 * (es.length + 1))) * 2 ^ 4 =
          2 ^ 64 * e + es.foldl (fun x e => 16 * x + e) 0 *
            2 ^ (64 - 4 * (es.length + 1)) * 2 ^ 4 := by ring
      have hX : es.foldl (fun x e => 16 * x + e) 0 *
          2 ^ (64 - 4 * (es.length + 1)) * 2 ^ 4 < 2 ^ 64 := by
        calc es.foldl (fun x e => 16 * x + e) 0 *
            2 ^ (64 - 4 * (es.length + 1)) * 2 ^ 4
            < 2 ^ 60 * 2 ^ 4 := mul_lt_mul_of_pos_right hr_lt (by norm_num)
          _ = 2 ^ 64 := by norm_num
      have hS4 : ((2 ^ 60 * e + es.foldl (fun x e => 16 * x + e) 0 *
          2 ^ (64 - 4 * (es.length + 1))) <<< 4) % 2 ^ 64 =
          es.foldl (fun x e => 16 * x + e) 0 * 2 ^ (64 - 4 * es.length) := by
        rw [Nat.shiftLeft_eq, harith, Nat.mul_add_mod, Nat.mod_eq_of_lt hX,
          mul_assoc, ← pow_add,
          show 64 - 4 * (es.length + 1) + 4 = 64 - 4 * es.length from by omega]
      rw [hS4]
      exact ih (by omega) (fun x hx => he x (by simp [hx]))

/-- The tile value printed back for the exponent obtained from a valid tile
value is that tile value again: the 16 cases of `get_exponent`. -/
lemma get_exponent_value_roundtrip {x e : ℕ} (h : get_exponent x = some e) :
    (if e = 0 then 0 else 2 <<< (e - 1)) = x := by
  unfold get_exponent at h
  split at h
  all_goals first
    | exact Option.noConfusion h
    | (injection h with h; subst h; decide)

/-- C4: for every sequence of exactly 16 values, each drawn from
`{0, 2, 4, ..., 32768}` (zero or a power of two up to `2^15`), converting the
sequence to a `Board` and back to a sequence returns it exactly. -/
theorem c4_sequence_roundtrip (v : List ℕ) (hlen : v.length = 16)
    (hval : ∀ x ∈ v, x ∈ ([0, 2, 4, 8, 16, 32, 64, 128, 256, 512, 1024, 2048,
      4096, 8192, 16384, 32768] : List ℕ)) :
    (board_from_vec v).map board_to_vec = some v := by
  have hsome : ∀ x ∈ v, ∃ e, get_exponent x = some e := by
    intro x hx
    have hall : ∀ y ∈ ([0, 2, 4, 8, 16, 32, 64, 128, 256, 512, 1024, 2048,
        4096, 8192, 16384, 32768] : List ℕ), (get_exponent y).isSome := by decide
    exact Option.isSome_iff_exists.1 (hall x (hval x hx))
  have hforall : List.Forall₂ (fun x e => get_exponent x = some e) v
      (v.map fun x => (get_exponent x).getD 0) := by
    rw [List.forall₂_map_right_iff]
    refine List.forall₂_same.2 ?_
    intro x hx
    obtain ⟨e, he⟩ := hsome x hx
    rw [he]
    simp
  have hes_lt : ∀ e ∈ v.map (fun x => (get_exponent x).getD 0), e < 16 := by
    intro e hemem
    rw [List.mem_map] at hemem
    obtain ⟨x, hx, rfl⟩ := hemem
    obtain ⟨e', he'⟩ := hsome x hx
    rw [he']
    simpa using get_exponent_lt he'
  have hlen_es : (v.map fun x => (get_exponent x).getD 0).length = 16 := by
    simp [hlen]
  have hfold := from_vec_fold_packed hforall (by omega) 0 (by positivity)
  have hP_lt : (v.map fun x => (get_exponent x).getD 0).foldl
      (fun x e => 16 * x + e) 0 < 2 ^ 64 := by
    have h := pack_lt _ hes_lt
    rw [hlen_es] at h
    calc (v.map fun x => (get_exponent x).getD 0).foldl (fun x e => 16 * x + e) 0
        < (16 : ℕ) ^ 16 := h
      _ = 2 ^ 64 := by norm_num
  have hloop := exponents_loop_packed (v.map fun x => (get_exponent x).getD 0)
    (by omega) hes_lt
  rw [hlen_es] at hloop
  norm_num at hloop
  rw [board_from_vec, hfold]
  simp only [Option.map_some', Option.some.injEq]
  rw [board_to_vec]
  dsimp only
  rw [Nat.mod_eq_of_lt hP_lt, hloop, List.map_map]
  have hback : ∀ x ∈ v, ((fun tile_exponent =>
      if tile_exponent = 0 then 0 else 2 <<< (tile_exponent - 1)) ∘
      fun x => (get_exponent x).getD 0) x = x := by
    intro x hx
    obtain ⟨e, he⟩ := hsome x hx
    simp only [Function.comp, he, Option.getD_some]
    exact get_exponent_value_roundtrip he
  conv_rhs => rw [← List.map_id v]
  exact List.map_congr_left hback

/-- Witness for C4 at the sequence holding each valid value once. -/
theorem c4_sequence_roundtrip_witness :
    ([0, 2, 4, 8, 16, 32, 64, 128, 256, 512, 1024, 2048, 4096, 8192, 16384,
      32768] : List ℕ).length = 16 ∧
    (board_from_vec [0, 2, 4, 8, 16, 32, 64, 128, 256, 512, 1024, 2048, 4096,
      8192, 16384, 32768]).map board_to_vec =
      some [0, 2, 4, 8, 16, 32, 64, 128, 256, 512, 1024, 2048, 4096, 8192,
        16384, 32768] :=
  ⟨by decide, c4_sequence_roundtrip _ (by decide) (by decide)⟩

end Game2048
